import Mathlib

set_option maxHeartbeats 1000000

/-!
Verification of the database monitoring snapshot subsystem
(MonitoringData / DatabaseSnapshot / DataDump).

The development shallowly embeds the core routines of the implementation:
the shared-memory element store (setup / write / cleanup / read /
ensureSpace), the snapshot row-filter state machine of the
DatabaseSnapshot constructor, the field materialization (putField) and
the global-id composition (getGlobalId).
-/

namespace Monitoring

/-- FB_ALIGN(n, q): round n up to the next multiple of q.  The source uses a
power-of-two bit mask; for a power-of-two q the mask and this formula agree. -/
def FB_ALIGN (n q : Nat) : Nat := ((n + q - 1) / q) * q

/-- Natural platform alignment used by MEM_ALIGN (FB_ALIGNMENT, 8 bytes). -/
def ALIGNMENT : Nat := 8

/-- Growth quantum and initial size of the shared region (DEFAULT_SIZE). -/
def DEFAULT_SIZE : Nat := 8192

/-- sizeof(Element): processId (4 bytes) + localId (4 bytes) + length (4 bytes). -/
def sizeofElement : Nat := 12

/-- MonitoringData::alignOffset. -/
def alignOffset (n : Nat) : Nat := FB_ALIGN n ALIGNMENT

/-- One store element: header fields (processId, localId, length) plus the
payload bytes.  The length header field always equals the payload byte count,
so the embedding keeps only the payload. -/
structure Element where
  processId : Nat
  localId : Nat
  payload : List Nat
deriving DecidableEq

/-- The aligned number of bytes an element occupies in the region. -/
def esize (e : Element) : Nat := alignOffset (sizeofElement + e.payload.length)

/-- Total aligned size of a list of elements. -/
def sumSizes (es : List Element) : Nat := (es.map esize).sum

/-- Shared region state: the header fields used/allocated plus the sequence of
elements laid out after the (aligned) header. -/
structure Store where
  used : Nat
  allocated : Nat
  elems : List Element
deriving DecidableEq

/-- Header stamped by the region initializer: used = aligned header size,
allocated = initial mapping length (DEFAULT_SIZE).  hdr is sizeof(Header),
which is platform dependent; the development keeps it as a parameter. -/
def initStore (hdr : Nat) : Store :=
  { used := alignOffset hdr, allocated := DEFAULT_SIZE, elems := [] }

/-- MonitoringData::ensureSpace, successful remap path: if used + length
exceeds allocated, grow allocated to used + length rounded up to the growth
quantum (after remapFile, allocated is set to the new mapped length). -/
def ensureSpace (s : Store) (length : Nat) : Store :=
  if s.used + length > s.allocated then
    { s with allocated := FB_ALIGN (s.used + length) DEFAULT_SIZE }
  else s

/-- MonitoringData::setup: ensure room, then append an empty element tagged
(pid, lid) at the tail (at offset used) and advance used by the aligned
element-header size.  Returns the new element's offset. -/
def setup (pid lid : Nat) (s : Store) : Store × Nat :=
  let s1 := ensureSpace s sizeofElement
  ({ s1 with
      elems := s1.elems ++ [{ processId := pid, localId := lid, payload := [] }],
      used := s1.used + alignOffset sizeofElement },
   s1.used)

/-- MonitoringData::write: append bytes to the payload of the element created
by the latest setup.  The protocol always writes at the tail element (the
offset returned by setup, while the region mutex is held), so the embedding
writes at the tail; used grows by the change of the aligned element size.
A write without a preceding setup is outside the API contract and is a no-op
here. -/
def write (bytes : List Nat) (s : Store) : Store :=
  match s.elems.getLast? with
  | none => s
  | some e =>
    let s1 := ensureSpace s bytes.length
    let previous := alignOffset (sizeofElement + e.payload.length)
    let current := alignOffset (sizeofElement + (e.payload ++ bytes).length)
    { s1 with
        elems := s1.elems.dropLast ++ [{ e with payload := e.payload ++ bytes }],
        used := s1.used + (current - previous) }

/-- The element-removal loop of MonitoringData::cleanup (memmove compaction):
keep an element unless both its processId and its localId match. -/
def cleanupElems (pid lid : Nat) : List Element → List Element
  | [] => []
  | e :: rest =>
    if e.processId = pid ∧ e.localId = lid then cleanupElems pid lid rest
    else e :: cleanupElems pid lid rest

/-- Total aligned size removed by cleanup (each removal decrements used by the
removed element's aligned size). -/
def removedSize (pid lid : Nat) : List Element → Nat
  | [] => 0
  | e :: rest =>
    if e.processId = pid ∧ e.localId = lid then esize e + removedSize pid lid rest
    else removedSize pid lid rest

/-- MonitoringData::cleanup. -/
def cleanup (pid lid : Nat) (s : Store) : Store :=
  { s with
      elems := cleanupElems pid lid s.elems,
      used := s.used - removedSize pid lid s.elems }

/-- One store operation applied to the shared region. -/
inductive MonOp where
  | setup (pid lid : Nat)
  | write (bytes : List Nat)
  | cleanup (pid lid : Nat)
deriving DecidableEq

def applyOp (s : Store) : MonOp → Store
  | .setup pid lid => (Monitoring.setup pid lid s).1
  | .write bytes => Monitoring.write bytes s
  | .cleanup pid lid => Monitoring.cleanup pid lid s

/-- A sequence of setup/write/cleanup calls against one region. -/
def runOps (s : Store) (ops : List MonOp) : Store := ops.foldl applyOp s

/-! Alignment arithmetic. -/

theorem le_alignOffset (n : Nat) : n ≤ alignOffset n := by
  simp only [alignOffset, FB_ALIGN, ALIGNMENT]
  omega

theorem alignOffset_mod (n : Nat) : alignOffset n % 8 = 0 := by
  simp only [alignOffset, FB_ALIGN, ALIGNMENT]
  omega

theorem alignOffset_mono {n m : Nat} (h : n ≤ m) : alignOffset n ≤ alignOffset m := by
  simp only [alignOffset, FB_ALIGN, ALIGNMENT]
  omega

theorem sumSizes_nil : sumSizes [] = 0 := rfl

theorem sumSizes_append (a b : List Element) :
    sumSizes (a ++ b) = sumSizes a + sumSizes b := by
  simp [sumSizes]

theorem sumSizes_mod (es : List Element) : sumSizes es % 8 = 0 := by
  induction es with
  | nil => rfl
  | cons e rest ih =>
    have h1 : esize e % 8 = 0 := alignOffset_mod _
    have h2 : sumSizes (e :: rest) = esize e + sumSizes rest := by
      simp [sumSizes]
    omega

/-- The region invariant: used is exactly the aligned header plus the aligned
sizes of all elements, allocated is a multiple of the growth quantum, and
used never exceeds allocated. -/
def StoreInv (hdr : Nat) (s : Store) : Prop :=
  s.used = alignOffset hdr + sumSizes s.elems ∧
  s.allocated % DEFAULT_SIZE = 0 ∧
  s.used ≤ s.allocated

theorem ensureSpace_spec (s : Store) (len : Nat)
    (h2 : s.allocated % DEFAULT_SIZE = 0) (h3 : s.used ≤ s.allocated) :
    (ensureSpace s len).used = s.used ∧
    (ensureSpace s len).elems = s.elems ∧
    (ensureSpace s len).allocated % DEFAULT_SIZE = 0 ∧
    s.used + len ≤ (ensureSpace s len).allocated := by
  have _hkeep : s.used ≤ s.allocated := h3
  unfold ensureSpace
  split
  · refine ⟨rfl, rfl, ?_, ?_⟩
    · simp only [FB_ALIGN, DEFAULT_SIZE]
      omega
    · simp only [FB_ALIGN, DEFAULT_SIZE]
      omega
  · exact ⟨rfl, rfl, h2, by omega⟩

theorem used_mod_of_inv {hdr : Nat} {s : Store} (h : StoreInv hdr s) : s.used % 8 = 0 := by
  have h1 := alignOffset_mod hdr
  have h2 := sumSizes_mod s.elems
  have h3 := h.1
  omega

theorem setup_inv {hdr : Nat} {s : Store} (pid lid : Nat) (h : StoreInv hdr s) :
    StoreInv hdr (setup pid lid s).1 := by
  obtain ⟨hrep, hallocmod, hle⟩ := h
  have hu8 : s.used % 8 = 0 := used_mod_of_inv ⟨hrep, hallocmod, hle⟩
  obtain ⟨hu, he, hm, hsp⟩ := ensureSpace_spec s sizeofElement hallocmod hle
  unfold setup
  refine ⟨?_, hm, ?_⟩
  · simp only [hu, he, sumSizes_append, hrep]
    have : sumSizes [{ processId := pid, localId := lid, payload := [] }] =
        alignOffset sizeofElement := by
      simp [sumSizes, esize]
    omega
  · have hq : (ensureSpace s sizeofElement).allocated % 8 = 0 := by
      simp only [DEFAULT_SIZE] at hm
      omega
    simp only [hu]
    have h12 : sizeofElement = 12 := rfl
    rw [h12] at hsp hq ⊢
    rw [show alignOffset 12 = 16 from by decide]
    omega

theorem getLast?_decomp : ∀ {l : List Element} {e : Element},
    l.getLast? = some e → l = l.dropLast ++ [e] := by
  intro l
  induction l with
  | nil => intro e h; simp at h
  | cons x rest ih =>
    intro e h
    cases rest with
    | nil => simp_all
    | cons y t =>
      rw [List.getLast?_cons_cons] at h
      have := ih h
      simp only [List.dropLast_cons₂, List.cons_append]
      exact congrArg (x :: ·) this

theorem align_growth_le {u A L b : Nat} (hu : u % 8 = 0) (hA : A % 8 = 0)
    (hle : u + L ≤ A) :
    u + (alignOffset (b + L) - alignOffset b) ≤ A := by
  simp only [alignOffset, FB_ALIGN, ALIGNMENT]
  omega

theorem write_inv {hdr : Nat} {s : Store} (bytes : List Nat) (h : StoreInv hdr s) :
    StoreInv hdr (write bytes s) := by
  obtain ⟨hrep, hallocmod, hle⟩ := h
  have hu8 : s.used % 8 = 0 := used_mod_of_inv ⟨hrep, hallocmod, hle⟩
  unfold write
  cases hlast : s.elems.getLast? with
  | none => exact ⟨hrep, hallocmod, hle⟩
  | some e =>
    obtain ⟨hu, he, hm, hsp⟩ := ensureSpace_spec s bytes.length hallocmod hle
    have hdec := getLast?_decomp hlast
    have hsplit : sumSizes s.elems = sumSizes s.elems.dropLast + esize e := by
      conv_lhs => rw [hdec]
      rw [sumSizes_append]
      simp [sumSizes]
    have hprevcur : alignOffset (sizeofElement + e.payload.length) ≤
        alignOffset (sizeofElement + (e.payload ++ bytes).length) := by
      apply alignOffset_mono
      simp
    refine ⟨?_, hm, ?_⟩
    · simp only [hu, he, sumSizes_append]
      have : sumSizes [{ e with payload := e.payload ++ bytes }] =
          alignOffset (sizeofElement + (e.payload ++ bytes).length) := by
        simp [sumSizes, esize]
      rw [this, hrep, hsplit]
      have he' : esize e = alignOffset (sizeofElement + e.payload.length) := rfl
      omega
    · simp only [hu]
      have hq : (ensureSpace s bytes.length).allocated % 8 = 0 := by
        simp only [DEFAULT_SIZE] at hm
        omega
      have hlen : (e.payload ++ bytes).length = e.payload.length + bytes.length := by
        simp
      rw [hlen]
      have hfit := @align_growth_le s.used ((ensureSpace s bytes.length).allocated)
        bytes.length (sizeofElement + e.payload.length) hu8 hq hsp
      have harg : sizeofElement + (e.payload.length + bytes.length) =
          (sizeofElement + e.payload.length) + bytes.length := by omega
      rw [harg]
      exact hfit

theorem cleanup_split (pid lid : Nat) (es : List Element) :
    sumSizes es = removedSize pid lid es + sumSizes (cleanupElems pid lid es) := by
  induction es with
  | nil => rfl
  | cons e rest ih =>
    by_cases hm : e.processId = pid ∧ e.localId = lid
    · simp only [removedSize, cleanupElems, if_pos hm]
      have : sumSizes (e :: rest) = esize e + sumSizes rest := by simp [sumSizes]
      omega
    · simp only [removedSize, cleanupElems, if_neg hm]
      have h1 : sumSizes (e :: rest) = esize e + sumSizes rest := by simp [sumSizes]
      have h2 : sumSizes (e :: cleanupElems pid lid rest) =
          esize e + sumSizes (cleanupElems pid lid rest) := by simp [sumSizes]
      omega

theorem cleanup_inv {hdr : Nat} {s : Store} (pid lid : Nat) (h : StoreInv hdr s) :
    StoreInv hdr (cleanup pid lid s) := by
  obtain ⟨hrep, hallocmod, hle⟩ := h
  have hsplit := cleanup_split pid lid s.elems
  unfold cleanup
  exact ⟨by simp only; omega, hallocmod, by simp only; omega⟩

theorem runOps_inv {hdr : Nat} (ops : List MonOp) :
    ∀ s : Store, StoreInv hdr s → StoreInv hdr (runOps s ops) := by
  induction ops with
  | nil => intro s h; exact h
  | cons op rest ih =>
    intro s h
    have hstep : StoreInv hdr (applyOp s op) := by
      cases op with
      | setup pid lid => exact setup_inv pid lid h
      | write bytes => exact write_inv bytes h
      | cleanup pid lid => exact cleanup_inv pid lid h
    exact ih (applyOp s op) hstep

theorem initStore_inv {hdr : Nat} (hinit : alignOffset hdr ≤ DEFAULT_SIZE) :
    StoreInv hdr (initStore hdr) := by
  refine ⟨by simp [initStore, sumSizes], by simp [initStore], ?_⟩
  simpa [initStore] using hinit

theorem foldl_offset (es : List Element) :
    ∀ base : Nat,
      es.foldl (fun off e => off + alignOffset (sizeofElement + e.payload.length)) base =
        base + sumSizes es := by
  induction es with
  | nil => intro base; simp [sumSizes]
  | cons e rest ih =>
    intro base
    have : sumSizes (e :: rest) = esize e + sumSizes rest := by simp [sumSizes]
    simp only [List.foldl_cons, ih, this, esize]
    omega

/-- C1: for every sequence of setup/write/cleanup calls on a region starting
from its initialized state, used ≤ allocated, used is aligned to the natural
alignment, allocated is a multiple of the growth quantum, and iterating the
elements from the first aligned offset after the header (advancing by each
element's aligned size) ends exactly at used, i.e. consumes exactly
used - alignOffset(sizeof Header) bytes. -/
theorem C1_store_invariant (hdr : Nat) (ops : List MonOp)
    (hinit : alignOffset hdr ≤ DEFAULT_SIZE) :
    (runOps (initStore hdr) ops).used ≤ (runOps (initStore hdr) ops).allocated ∧
    (runOps (initStore hdr) ops).used % ALIGNMENT = 0 ∧
    (runOps (initStore hdr) ops).allocated % DEFAULT_SIZE = 0 ∧
    (runOps (initStore hdr) ops).elems.foldl
        (fun off e => off + alignOffset (sizeofElement + e.payload.length))
        (alignOffset hdr)
      = (runOps (initStore hdr) ops).used := by
  have hinv := runOps_inv ops (initStore hdr) (initStore_inv hinit)
  obtain ⟨hrep, hmod, hle⟩ := hinv
  refine ⟨hle, ?_, hmod, ?_⟩
  · have h8 : (runOps (initStore hdr) ops).used % 8 = 0 :=
      used_mod_of_inv ⟨hrep, hmod, hle⟩
    simpa [ALIGNMENT] using h8
  · rw [foldl_offset]
    omega

/-- Witness for C1 at a concrete header size and operation sequence. -/
theorem C1_store_invariant_witness :
    alignOffset 48 ≤ DEFAULT_SIZE ∧
    ((runOps (initStore 48) [MonOp.setup 1000 1, MonOp.write [1, 2, 3, 4, 5],
        MonOp.cleanup 1000 1]).used ≤
      (runOps (initStore 48) [MonOp.setup 1000 1, MonOp.write [1, 2, 3, 4, 5],
        MonOp.cleanup 1000 1]).allocated ∧
     (runOps (initStore 48) [MonOp.setup 1000 1, MonOp.write [1, 2, 3, 4, 5],
        MonOp.cleanup 1000 1]).used % ALIGNMENT = 0 ∧
     (runOps (initStore 48) [MonOp.setup 1000 1, MonOp.write [1, 2, 3, 4, 5],
        MonOp.cleanup 1000 1]).allocated % DEFAULT_SIZE = 0 ∧
     (runOps (initStore 48) [MonOp.setup 1000 1, MonOp.write [1, 2, 3, 4, 5],
        MonOp.cleanup 1000 1]).elems.foldl
         (fun off e => off + alignOffset (sizeofElement + e.payload.length))
         (alignOffset 48)
       = (runOps (initStore 48) [MonOp.setup 1000 1, MonOp.write [1, 2, 3, 4, 5],
           MonOp.cleanup 1000 1]).used) :=
  ⟨by decide,
   C1_store_invariant 48
     [MonOp.setup 1000 1, MonOp.write [1, 2, 3, 4, 5], MonOp.cleanup 1000 1]
     (by decide)⟩

/-! The read() two-pass garbage-collecting copy (MonitoringData::read).
Offsets correspond to indices into the compacted element list. -/

/-- First pass of MonitoringData::read: walk the elements, drop every element
whose process is dead (compacting in place), accumulate the payload length of
the survivors into the result size, and record the (post-compaction) position
of the element matching this process's (pid, lid); a later match overwrites an
earlier one, exactly like the repeated assignment to self_dbb_offset. -/
def readPass1 (alive : Nat → Bool) (pid lid : Nat) :
    List Element → List Element → Option Nat → Nat →
      List Element × Option Nat × Nat
  | [], acc, self, size => (acc, self, size)
  | e :: rest, acc, self, size =>
    let self1 := if e.processId = pid ∧ e.localId = lid then some acc.length else self
    if alive e.processId then
      readPass1 alive pid lid rest (acc ++ [e]) self1 (size + e.payload.length)
    else
      readPass1 alive pid lid rest acc self1 size

/-- Payload bytes of a whole element list, in store order. -/
def joinPayloads : List Element → List Nat
  | [] => []
  | e :: rest => e.payload ++ joinPayloads rest

/-- Second pass of MonitoringData::read, non-self part: copy every element's
payload in store order, skipping the single element at the recorded self
position (offsets are unique, so the offset comparison skips exactly one). -/
def pass2 : List Element → Nat → List Nat
  | [], _ => []
  | _e :: rest, 0 => joinPayloads rest
  | e :: rest, Nat.succ i => e.payload ++ pass2 rest i

/-- MonitoringData::read: first pass compacts dead elements and finds the own
element; second pass builds the buffer with the own payload first.  Returns
the buffer (none models the fb_assert(self_dbb_offset) tripping) and the
compacted element list left in the region. -/
def read (alive : Nat → Bool) (pid lid : Nat) (elems : List Element)
    (szInit : Nat) : Option (List Nat) × List Element :=
  let r := readPass1 alive pid lid elems [] none szInit
  match r.2.1 with
  | none => (none, r.1)
  | some i =>
    match r.1.get? i with
    | none => (none, r.1)
    | some e => (some (e.payload ++ pass2 r.1 i), r.1)

/-- Position of the last element matching (pid, lid) in a list. -/
def lastMatchPos (pid lid : Nat) : List Element → Option Nat
  | [] => none
  | e :: rest =>
    match lastMatchPos pid lid rest with
    | some i => some (i + 1)
    | none => if e.processId = pid ∧ e.localId = lid then some 0 else none

theorem readPass1_spec (alive : Nat → Bool) (pid lid : Nat) :
    ∀ (l acc : List Element) (self : Option Nat) (size : Nat),
      (∀ e ∈ l, e.processId = pid ∧ e.localId = lid → alive e.processId = true) →
      readPass1 alive pid lid l acc self size =
        (acc ++ l.filter (fun e => alive e.processId),
         (match lastMatchPos pid lid (l.filter (fun e => alive e.processId)) with
          | some i => some (acc.length + i)
          | none => self),
         size + ((l.filter (fun e => alive e.processId)).map
            (fun e => e.payload.length)).sum) := by
  intro l
  induction l with
  | nil => intro acc self size _h; simp [readPass1, lastMatchPos]
  | cons e rest ih =>
    intro acc self size h
    have hrest : ∀ x ∈ rest, x.processId = pid ∧ x.localId = lid →
        alive x.processId = true := fun x hx => h x (List.mem_cons_of_mem e hx)
    by_cases halive : alive e.processId
    · have hfil : (e :: rest).filter (fun x => alive x.processId) =
          e :: rest.filter (fun x => alive x.processId) := by
        simp [List.filter_cons, halive]
      rw [hfil]
      simp only [readPass1, halive, if_true]
      rw [ih (acc ++ [e]) _ _ hrest]
      by_cases hm : e.processId = pid ∧ e.localId = lid
      · simp only [if_pos hm, lastMatchPos]
        cases hlm : lastMatchPos pid lid (rest.filter (fun x => alive x.processId)) with
        | none =>
          simp only [Prod.mk.injEq]
          refine ⟨by simp, by simp, by simp; omega⟩
        | some i =>
          simp only [Prod.mk.injEq]
          refine ⟨by simp, by simp; omega, by simp; omega⟩
      · simp only [if_neg hm, lastMatchPos]
        cases hlm : lastMatchPos pid lid (rest.filter (fun x => alive x.processId)) with
        | none =>
          simp only [Prod.mk.injEq]
          refine ⟨by simp, by simp, by simp; omega⟩
        | some i =>
          simp only [Prod.mk.injEq]
          refine ⟨by simp, by simp; omega, by simp; omega⟩
    · have hm : ¬(e.processId = pid ∧ e.localId = lid) := by
        intro hm
        exact halive (h e (List.mem_cons_self e rest) hm)
      have hfil : (e :: rest).filter (fun x => alive x.processId) =
          rest.filter (fun x => alive x.processId) := by
        simp [List.filter_cons, halive]
      rw [hfil]
      simp only [readPass1, halive, if_false, if_neg hm]
      exact ih acc self size hrest

theorem lastMatchPos_bound (pid lid : Nat) :
    ∀ (l : List Element) (i : Nat), lastMatchPos pid lid l = some i →
      ∃ h : i < l.length,
        (l.get ⟨i, h⟩).processId = pid ∧ (l.get ⟨i, h⟩).localId = lid := by
  intro l
  induction l with
  | nil => intro i h; simp [lastMatchPos] at h
  | cons e rest ih =>
    intro i h
    simp only [lastMatchPos] at h
    cases hlm : lastMatchPos pid lid rest with
    | some j =>
      rw [hlm] at h
      cases h
      obtain ⟨hb, h1, h2⟩ := ih j hlm
      exact ⟨by simp; omega, h1, h2⟩
    | none =>
      rw [hlm] at h
      by_cases hm : e.processId = pid ∧ e.localId = lid
      · rw [if_pos hm] at h
        cases h
        exact ⟨by simp, hm.1, hm.2⟩
      · rw [if_neg hm] at h
        cases h

theorem lastMatchPos_isSome (pid lid : Nat) :
    ∀ l : List Element, (∃ e ∈ l, e.processId = pid ∧ e.localId = lid) →
      (lastMatchPos pid lid l).isSome := by
  intro l
  induction l with
  | nil => intro h; simp at h
  | cons e rest ih =>
    intro h
    simp only [lastMatchPos]
    cases hlm : lastMatchPos pid lid rest with
    | some j => simp
    | none =>
      obtain ⟨x, hx, hxm⟩ := h
      rcases List.mem_cons.mp hx with heq | hmem
      · subst heq
        simp [if_pos hxm]
      · have := ih ⟨x, hmem, hxm⟩
        rw [hlm] at this
        simp at this

theorem joinPayloads_eq (l : List Element) :
    joinPayloads l = (l.map Element.payload).flatten := by
  induction l with
  | nil => rfl
  | cons e rest ih => simp [joinPayloads, ih]

theorem pass2_eq : ∀ (l : List Element) (i : Nat),
    pass2 l i = ((l.eraseIdx i).map Element.payload).flatten := by
  intro l
  induction l with
  | nil => intro i; simp [pass2, List.eraseIdx]
  | cons e rest ih =>
    intro i
    cases i with
    | zero => simp [pass2, List.eraseIdx, joinPayloads_eq]
    | succ j => simp [pass2, List.eraseIdx, ih]

/-- C2: if the caller's own element (matching its process id and local id) is
present and the output size starts at zero, read() returns a buffer consisting
of the caller's own payload first, followed by the payloads of all other
elements whose process is alive, in store order: every live element's payload
appears exactly once and no dead element's payload appears. -/
theorem C2_read_live_payloads (alive : Nat → Bool) (pid lid : Nat)
    (elems : List Element)
    (hself : ∃ e ∈ elems, e.processId = pid ∧ e.localId = lid)
    (halive : alive pid = true) :
    ∃ i, ∃ h : i < (elems.filter (fun e => alive e.processId)).length,
      ((elems.filter (fun e => alive e.processId)).get ⟨i, h⟩).processId = pid ∧
      ((elems.filter (fun e => alive e.processId)).get ⟨i, h⟩).localId = lid ∧
      (read alive pid lid elems 0).1 =
        some (((elems.filter (fun e => alive e.processId)).get ⟨i, h⟩).payload ++
          (((elems.filter (fun e => alive e.processId)).eraseIdx i).map
            Element.payload).flatten) := by
  have hma : ∀ e ∈ elems, e.processId = pid ∧ e.localId = lid →
      alive e.processId = true := by
    intro e _he hm
    rw [hm.1]
    exact halive
  have hspec := readPass1_spec alive pid lid elems [] none 0 hma
  obtain ⟨e0, he0, he0m⟩ := hself
  have he0f : e0 ∈ elems.filter (fun e => alive e.processId) := by
    rw [List.mem_filter]
    exact ⟨he0, hma e0 he0 he0m⟩
  have hsome := lastMatchPos_isSome pid lid _ ⟨e0, he0f, he0m⟩
  cases hlm : lastMatchPos pid lid (elems.filter (fun e => alive e.processId)) with
  | none => rw [hlm] at hsome; simp at hsome
  | some i =>
    obtain ⟨hb, hp1, hp2⟩ := lastMatchPos_bound pid lid _ i hlm
    refine ⟨i, hb, hp1, hp2, ?_⟩
    unfold read
    rw [hspec]
    simp only [hlm, List.nil_append, List.length_nil, Nat.zero_add]
    rw [List.get?_eq_get hb]
    simp [pass2_eq]

/-- Witness for C2 at a concrete store: pids 1000 (the caller), 1500 (dead)
and 2000; the buffer is the caller's payload followed by pid 2000's payload. -/
theorem C2_read_live_payloads_witness :
    (∃ e ∈ [Element.mk 1500 1 [99], Element.mk 1000 1 [10, 11],
        Element.mk 2000 1 [20]],
      e.processId = 1000 ∧ e.localId = 1) ∧
    ((fun p => decide (p ≠ 1500)) 1000 = true) ∧
    (∃ i, ∃ h : i < (([Element.mk 1500 1 [99], Element.mk 1000 1 [10, 11],
        Element.mk 2000 1 [20]]).filter
          (fun e => (fun p => decide (p ≠ 1500)) e.processId)).length,
      ((([Element.mk 1500 1 [99], Element.mk 1000 1 [10, 11],
        Element.mk 2000 1 [20]]).filter
          (fun e => (fun p => decide (p ≠ 1500)) e.processId)).get ⟨i, h⟩).processId
          = 1000 ∧
      ((([Element.mk 1500 1 [99], Element.mk 1000 1 [10, 11],
        Element.mk 2000 1 [20]]).filter
          (fun e => (fun p => decide (p ≠ 1500)) e.processId)).get ⟨i, h⟩).localId
          = 1 ∧
      (read (fun p => decide (p ≠ 1500)) 1000 1
          [Element.mk 1500 1 [99], Element.mk 1000 1 [10, 11],
           Element.mk 2000 1 [20]] 0).1 =
        some (((([Element.mk 1500 1 [99], Element.mk 1000 1 [10, 11],
            Element.mk 2000 1 [20]]).filter
              (fun e => (fun p => decide (p ≠ 1500)) e.processId)).get
                ⟨i, h⟩).payload ++
          (((([Element.mk 1500 1 [99], Element.mk 1000 1 [10, 11],
            Element.mk 2000 1 [20]]).filter
              (fun e => (fun p => decide (p ≠ 1500)) e.processId)).eraseIdx i).map
            Element.payload).flatten)) :=
  ⟨by decide, by decide,
   C2_read_live_payloads (fun p => decide (p ≠ 1500)) 1000 1
     [Element.mk 1500 1 [99], Element.mk 1000 1 [10, 11], Element.mk 2000 1 [20]]
     (by decide) (by decide)⟩

/-- C3 as stated is false: cleanup() removes only elements matching both the
process id and the local id, so an element of the same process under a
different local id remains.  Concrete counterexample: the store holds one
element (processId 1000, localId 2); after cleanup() by process 1000 with
local id 1, that element is still present. -/
theorem C3_cleanup_counterexample :
    ¬ (∀ (s : Store) (pid lid : Nat), ∀ e ∈ (cleanup pid lid s).elems,
        e.processId ≠ pid) := by
  intro h
  exact h (Store.mk 32 8192 [Element.mk 1000 2 []])
    1000 1 (Element.mk 1000 2 []) (by decide) rfl

/-- C3 amended: after cleanup() by process P with local id L, no element with
processId = P and localId = L remains (elements of the same process under a
different local id survive). -/
theorem C3_cleanup_removes_own (s : Store) (pid lid : Nat) :
    ∀ e ∈ (cleanup pid lid s).elems, ¬(e.processId = pid ∧ e.localId = lid) := by
  have haux : ∀ es : List Element, ∀ e ∈ cleanupElems pid lid es,
      ¬(e.processId = pid ∧ e.localId = lid) := by
    intro es
    induction es with
    | nil => intro e he; simp [cleanupElems] at he
    | cons x rest ih =>
      intro e he
      simp only [cleanupElems] at he
      by_cases hm : x.processId = pid ∧ x.localId = lid
      · rw [if_pos hm] at he
        exact ih e he
      · rw [if_neg hm] at he
        rcases List.mem_cons.mp he with heq | hmem
        · subst heq; exact hm
        · exact ih e hmem
  exact haux s.elems

/-- Witness for the amended C3 at a concrete store. -/
theorem C3_cleanup_removes_own_witness :
    (Element.mk 1000 2 [] ∈
      (cleanup 1000 1 (Store.mk 32 8192 [Element.mk 1000 2 []])).elems) ∧
    ¬((Element.mk 1000 2 []).processId = 1000 ∧ (Element.mk 1000 2 []).localId = 1) :=
  ⟨by decide,
   C3_cleanup_removes_own (Store.mk 32 8192 [Element.mk 1000 2 []]) 1000 1
     (Element.mk 1000 2 []) (by decide)⟩

end Monitoring

namespace Snapshot

/-!
The row-filter state machine of the DatabaseSnapshot constructor: the parse
loop over the dump stream with the flags dbb_allowed / att_allowed /
dbb_processed and the per-record fields_processed flag, which decides whether
a record is stored into its relation's row buffer.
-/

/-- The monitoring relations handled by the parse loop (any other relation id
hits fb_assert(false); collectors only ever emit these nine). -/
inductive Rel where
  | database
  | attachments
  | transactions
  | statements
  | calls
  | io_stats
  | rec_stats
  | ctx_vars
  | mem_usage
deriving DecidableEq

/-- Field id of the database-name column (f_mon_db_name).  The collector
always emits it as the first field of a database record; only its position
within its own relation matters here. -/
def f_mon_db_name : Nat := 0

/-- Field id of the attachment user column (f_mon_att_user), always emitted
as the first field of an attachment record. -/
def f_mon_att_user : Nat := 0

/-- A decoded dump field: its field id and its payload bytes (the filter only
compares payloads of the name/user fields byte-wise). -/
structure DField where
  id : Nat
  data : List Nat
deriving DecidableEq

/-- A decoded dump record. -/
structure DRecord where
  rid : Rel
  fields : List DField
deriving DecidableEq

/-- Identity of the requesting attachment: resolved database name (UTF-8
bytes), user name and the locksmith privilege bit. -/
structure Ctx where
  dbName : List Nat
  userName : List Nat
  locksmith : Bool
deriving DecidableEq

/-- Filter flags of the parse loop (dbb_allowed / att_allowed /
dbb_processed); all start false. -/
structure FState where
  dbb_allowed : Bool
  att_allowed : Bool
  dbb_processed : Bool
deriving DecidableEq

def initFState : FState := ⟨false, false, false⟩

/-- Payload of the first field of a record (empty for an empty record). -/
def firstData (r : DRecord) : List Nat :=
  match r.fields with
  | [] => []
  | f :: _ => f.data

/-- One iteration of the inner field loop of the constructor, carrying the
filter state together with the fields_processed flag:
for a database record the name field updates dbb_allowed, a field is put when
dbb_allowed and the database row was not already emitted, and att_allowed is
re-assigned to that same condition;
for an attachment record the user field updates att_allowed, and a field is
put (also marking dbb_processed) when dbb_allowed and att_allowed hold;
for every other relation a field is put (also marking dbb_processed) when
dbb_allowed and att_allowed hold. -/
def stepField (ctx : Ctx) (rid : Rel) : FState × Bool → DField → FState × Bool :=
  fun st_fp f =>
    let st := st_fp.1
    let fp := st_fp.2
    if rid = Rel.database then
      let da := if f.id = f_mon_db_name then decide (f.data = ctx.dbName)
                else st.dbb_allowed
      let cond := da && !st.dbb_processed
      (⟨da, cond, st.dbb_processed⟩, fp || cond)
    else if rid = Rel.attachments then
      let aa := if f.id = f_mon_att_user then
                  ctx.locksmith || decide (f.data = ctx.userName)
                else st.att_allowed
      let cond := st.dbb_allowed && aa
      (⟨st.dbb_allowed, aa, st.dbb_processed || cond⟩, fp || cond)
    else
      let cond := st.dbb_allowed && st.att_allowed
      (⟨st.dbb_allowed, st.att_allowed, st.dbb_processed || cond⟩, fp || cond)

/-- Processing one record: fold its fields starting from fields_processed =
false.  The Bool result is the fields_processed flag after the field loop,
i.e. whether the record was stored into its relation's buffer. -/
def stepRecord (ctx : Ctx) (st : FState) (r : DRecord) : FState × Bool :=
  r.fields.foldl (stepField ctx r.rid) (st, false)

/-- The whole parse loop: each record paired with its acceptance flag. -/
def annotate (ctx : Ctx) (st : FState) : List DRecord → List (DRecord × Bool)
  | [] => []
  | r :: rest =>
    let sa := stepRecord ctx st r
    (r, sa.2) :: annotate ctx sa.1 rest

/-- Filter state after a list of records. -/
def stateAfter (ctx : Ctx) (st : FState) (recs : List DRecord) : FState :=
  recs.foldl (fun s r => (stepRecord ctx s r).1) st

/-- Acceptance flag of the record at a given position of the stream. -/
def acceptedAt (ctx : Ctx) (recs : List DRecord) (i : Nat) : Bool :=
  match (annotate ctx initFState recs).get? i with
  | some x => x.2
  | none => false

/-- Index of the most recent database record within a stream prefix. -/
def lastDbIdxAux : List DRecord → Nat → Option Nat → Option Nat
  | [], _, acc => acc
  | r :: rest, i, acc =>
    lastDbIdxAux rest (i + 1) (if r.rid = Rel.database then some i else acc)

def lastDbIdx (p : List DRecord) : Option Nat := lastDbIdxAux p 0 none

/-- Name field of the most recent database record of a prefix. -/
def latestDbNameAux (o : Option (List Nat)) (p : List DRecord) : Option (List Nat) :=
  p.foldl (fun acc r => if r.rid = Rel.database then some (firstData r) else acc) o

def latestDbName (p : List DRecord) : Option (List Nat) := latestDbNameAux none p

/-- Number of database-relation records stored into the database row buffer. -/
def storedDbCount (ctx : Ctx) (recs : List DRecord) : Nat :=
  ((annotate ctx initFState recs).filter
    (fun x => x.2 && decide (x.1.rid = Rel.database))).length

/-- Claim C4 as stated: an attachment record is stored into the attachments
row buffer iff the parent (most recent preceding) database record was itself
accepted and the requester is locksmith or the record's first (user) field
equals the requesting user name byte-exactly. -/
def claimC4 (ctx : Ctx) (recs : List DRecord) : Prop :=
  ∀ p c q, recs = p ++ c :: q → c.rid = Rel.attachments →
    (acceptedAt ctx recs p.length = true ↔
      ((match lastDbIdx p with
        | some j => acceptedAt ctx recs j = true
        | none => False) ∧
       (ctx.locksmith = true ∨ firstData c = ctx.userName)))

/-- Claim C5 as stated: every accepted record of a child relation is preceded
by an accepted attachment record that itself belongs to (follows) an accepted
database record. -/
def claimC5 (ctx : Ctx) (recs : List DRecord) : Prop :=
  ∀ p c q, recs = p ++ c :: q →
    c.rid ≠ Rel.database → c.rid ≠ Rel.attachments →
    acceptedAt ctx recs p.length = true →
    ∃ j, j < p.length ∧ (∃ r, p.get? j = some r ∧ r.rid = Rel.attachments) ∧
      acceptedAt ctx recs j = true ∧
      (match lastDbIdx (p.take j) with
       | some k => acceptedAt ctx recs k = true
       | none => False)

/-- Claim C6 as stated: a database record is accepted iff its first (name)
field equals the requesting database's resolved name byte-exactly, and at
most one database record is stored across the whole stream. -/
def claimC6 (ctx : Ctx) (recs : List DRecord) : Prop :=
  (∀ p c q, recs = p ++ c :: q → c.rid = Rel.database →
    (acceptedAt ctx recs p.length = true ↔ firstData c = ctx.dbName)) ∧
  storedDbCount ctx recs ≤ 1

/-- The concrete four-record stream refuting C4: db(match), att(user),
db(match), att(user), read by a non-locksmith whose user name matches. -/
def exRecs4 : List DRecord :=
  [DRecord.mk Rel.database [DField.mk 0 [1]],
   DRecord.mk Rel.attachments [DField.mk 0 [2]],
   DRecord.mk Rel.database [DField.mk 0 [1]],
   DRecord.mk Rel.attachments [DField.mk 0 [2]]]

def exCtx : Ctx := Ctx.mk [1] [2] false

/-- C4 as stated is false on the code: in the stream db(match), att(user),
db(match), att(user), the second database record is not stored (dbb_processed
was set by the first accepted attachment), yet the second attachment record is
still stored, so the "iff" fails at the final attachment record. -/
theorem C4_counterexample : ¬ claimC4 exCtx exRecs4 := by
  intro h
  have hinst := h
    [DRecord.mk Rel.database [DField.mk 0 [1]],
     DRecord.mk Rel.attachments [DField.mk 0 [2]],
     DRecord.mk Rel.database [DField.mk 0 [1]]]
    (DRecord.mk Rel.attachments [DField.mk 0 [2]]) [] rfl rfl
  have hfwd := hinst.mp (by decide)
  rw [show lastDbIdx
      [DRecord.mk Rel.database [DField.mk 0 [1]],
       DRecord.mk Rel.attachments [DField.mk 0 [2]],
       DRecord.mk Rel.database [DField.mk 0 [1]]] = some 2 from by decide] at hfwd
  have hred : acceptedAt exCtx exRecs4 2 = true := hfwd.1
  exact absurd hred (by decide)

/-- C5 as stated is false on the code: in the stream db(match), io_stats,
the io_stats record (a database-level statistics row) is accepted although no
attachment record exists anywhere in the stream - the database branch itself
sets att_allowed. -/
theorem C5_counterexample :
    ¬ claimC5 (Ctx.mk [1] [2] false)
      [DRecord.mk Rel.database [DField.mk 0 [1]],
       DRecord.mk Rel.io_stats [DField.mk 3 [7]]] := by
  intro h
  have hinst := h [DRecord.mk Rel.database [DField.mk 0 [1]]]
    (DRecord.mk Rel.io_stats [DField.mk 3 [7]]) [] rfl
    (by decide) (by decide) (by decide)
  obtain ⟨j, hj, ⟨r, hget, hatt⟩, _⟩ := hinst
  have hj0 : j = 0 := by
    simp only [List.length_cons, List.length_nil] at hj
    omega
  subst hj0
  have h2 : some (DRecord.mk Rel.database [DField.mk 0 [1]]) = some r := hget
  cases h2
  exact absurd hatt (by decide)

/-- C6 as stated is false on the code: for the stream db(match), db(match)
both database records are stored (dbb_processed is only set by accepted
attachment or child records, so the second adjacent database record passes
the !dbb_processed check as well). -/
theorem C6_counterexample :
    ¬ claimC6 (Ctx.mk [1] [2] false)
      [DRecord.mk Rel.database [DField.mk 0 [1]],
       DRecord.mk Rel.database [DField.mk 0 [1]]] := by
  intro h
  have h2 := h.2
  revert h2
  decide

/-! Fold lemmas about the field loop. -/

theorem fold_fp_mono (ctx : Ctx) (rid : Rel) :
    ∀ (fs : List DField) (st : FState),
      (List.foldl (stepField ctx rid) (st, true) fs).2 = true := by
  intro fs
  induction fs with
  | nil => intro st; rfl
  | cons f rest ih =>
    intro st
    have hstep : stepField ctx rid (st, true) f =
        ((stepField ctx rid (st, true) f).1, true) := by
      by_cases h1 : rid = Rel.database
      · simp [stepField, h1]
      · by_cases h2 : rid = Rel.attachments
        · simp [stepField, h1, h2]
        · simp [stepField, h1, h2]
    rw [List.foldl_cons, hstep]
    exact ih _

theorem fold_dp_mono (ctx : Ctx) (rid : Rel) :
    ∀ (fs : List DField) (st : FState) (fp : Bool),
      st.dbb_processed = true →
      (List.foldl (stepField ctx rid) (st, fp) fs).1.dbb_processed = true := by
  intro fs
  induction fs with
  | nil => intro st fp h; exact h
  | cons f rest ih =>
    intro st fp hdp
    rw [List.foldl_cons]
    have h1 : (stepField ctx rid (st, fp) f).1.dbb_processed = true := by
      by_cases hb1 : rid = Rel.database
      · simp [stepField, hb1, hdp]
      · by_cases hb2 : rid = Rel.attachments
        · simp [stepField, hb1, hb2, hdp]
        · simp [stepField, hb1, hb2, hdp]
    simpa using ih (stepField ctx rid (st, fp) f).1 (stepField ctx rid (st, fp) f).2 h1

theorem fold_da_preserve (ctx : Ctx) (rid : Rel) (hne : rid ≠ Rel.database) :
    ∀ (fs : List DField) (st : FState) (fp : Bool),
      (List.foldl (stepField ctx rid) (st, fp) fs).1.dbb_allowed = st.dbb_allowed := by
  intro fs
  induction fs with
  | nil => intro st fp; rfl
  | cons f rest ih =>
    intro st fp
    rw [List.foldl_cons]
    have h1 : (stepField ctx rid (st, fp) f).1.dbb_allowed = st.dbb_allowed := by
      by_cases hb2 : rid = Rel.attachments
      · simp [stepField, hne, hb2]
      · simp [stepField, hne, hb2]
    have := ih (stepField ctx rid (st, fp) f).1 (stepField ctx rid (st, fp) f).2
    simpa [h1] using this

theorem stepField_shape_nonDb (ctx : Ctx) (rid : Rel) (hne : rid ≠ Rel.database)
    (st : FState) (fp : Bool) (f : DField) :
    ∃ aa1 c, stepField ctx rid (st, fp) f =
      (⟨st.dbb_allowed, aa1, st.dbb_processed || c⟩, fp || c) := by
  by_cases h2 : rid = Rel.attachments
  · exact ⟨(if f.id = f_mon_att_user then
        ctx.locksmith || decide (f.data = ctx.userName) else st.att_allowed),
      st.dbb_allowed && (if f.id = f_mon_att_user then
        ctx.locksmith || decide (f.data = ctx.userName) else st.att_allowed),
      by simp [stepField, hne, h2]⟩
  · exact ⟨st.att_allowed, st.dbb_allowed && st.att_allowed,
      by simp [stepField, hne, h2]⟩

theorem fold_dp_or (ctx : Ctx) (rid : Rel) (hne : rid ≠ Rel.database) :
    ∀ (fs : List DField) (st : FState) (fp : Bool),
      ((List.foldl (stepField ctx rid) (st, fp) fs).1.dbb_processed || fp) =
        (st.dbb_processed || (List.foldl (stepField ctx rid) (st, fp) fs).2) := by
  intro fs
  induction fs with
  | nil => intro st fp; rfl
  | cons f rest ih =>
    intro st fp
    obtain ⟨aa1, c, hstep⟩ := stepField_shape_nonDb ctx rid hne st fp f
    rw [List.foldl_cons, hstep]
    cases hc : c with
    | false =>
      have := ih ⟨st.dbb_allowed, aa1, st.dbb_processed⟩ fp
      simpa [hc] using this
    | true =>
      have hdp : (List.foldl (stepField ctx rid)
          (⟨st.dbb_allowed, aa1, st.dbb_processed || true⟩, fp || true) rest).1.dbb_processed
            = true := by
        apply fold_dp_mono
        simp
      have hfp : (List.foldl (stepField ctx rid)
          (⟨st.dbb_allowed, aa1, st.dbb_processed || true⟩, fp || true) rest).2 = true := by
        have heq : (fp || true) = true := by simp
        rw [heq]
        exact fold_fp_mono ctx rid rest _
      rw [hdp, hfp]
      simp

theorem fold_child (ctx : Ctx) (rid : Rel) (h1 : rid ≠ Rel.database)
    (h2 : rid ≠ Rel.attachments) :
    ∀ (fs : List DField) (st : FState) (fp : Bool),
      List.foldl (stepField ctx rid) (st, fp) fs =
        (⟨st.dbb_allowed, st.att_allowed,
          st.dbb_processed || (!fs.isEmpty && (st.dbb_allowed && st.att_allowed))⟩,
         fp || (!fs.isEmpty && (st.dbb_allowed && st.att_allowed))) := by
  intro fs
  induction fs with
  | nil => intro st fp; simp
  | cons f rest ih =>
    intro st fp
    have hstep : stepField ctx rid (st, fp) f =
        (⟨st.dbb_allowed, st.att_allowed,
          st.dbb_processed || (st.dbb_allowed && st.att_allowed)⟩,
         fp || (st.dbb_allowed && st.att_allowed)) := by
      simp [stepField, h1, h2]
    rw [List.foldl_cons, hstep, ih]
    cases hc : (st.dbb_allowed && st.att_allowed) <;> simp [hc]

theorem fold_db_dp (ctx : Ctx) :
    ∀ (fs : List DField) (st : FState) (fp : Bool),
      (List.foldl (stepField ctx Rel.database) (st, fp) fs).1.dbb_processed =
        st.dbb_processed := by
  intro fs
  induction fs with
  | nil => intro st fp; rfl
  | cons f rest ih =>
    intro st fp
    rw [List.foldl_cons]
    have h1 : (stepField ctx Rel.database (st, fp) f).1.dbb_processed =
        st.dbb_processed := by
      simp [stepField]
    have := ih (stepField ctx Rel.database (st, fp) f).1
      (stepField ctx Rel.database (st, fp) f).2
    simpa [h1] using this

theorem fold_db_da_cases (ctx : Ctx) :
    ∀ (fs : List DField) (st : FState) (fp : Bool),
      (List.foldl (stepField ctx Rel.database) (st, fp) fs).1.dbb_allowed = true →
      (List.foldl (stepField ctx Rel.database) (st, fp) fs).2 = true ∨
        st.dbb_processed = true ∨ st.dbb_allowed = true := by
  intro fs
  induction fs with
  | nil => intro st fp h; exact Or.inr (Or.inr h)
  | cons f rest ih =>
    intro st fp hda
    rw [List.foldl_cons] at hda ⊢
    have hstep : stepField ctx Rel.database (st, fp) f =
        (⟨(if f.id = f_mon_db_name then decide (f.data = ctx.dbName)
             else st.dbb_allowed),
          (if f.id = f_mon_db_name then decide (f.data = ctx.dbName)
             else st.dbb_allowed) && !st.dbb_processed,
          st.dbb_processed⟩,
         fp || ((if f.id = f_mon_db_name then decide (f.data = ctx.dbName)
             else st.dbb_allowed) && !st.dbb_processed)) := by
      simp [stepField]
    rw [hstep] at hda ⊢
    rcases ih _ _ hda with hacc | hdp | hda1
    · exact Or.inl hacc
    · exact Or.inr (Or.inl hdp)
    · simp only at hda1
      by_cases hn : f.id = f_mon_db_name
      · rw [if_pos hn] at hda1
        by_cases hdpc : st.dbb_processed = true
        · exact Or.inr (Or.inl hdpc)
        · have hdpf : st.dbb_processed = false := by
            cases hv : st.dbb_processed
            · rfl
            · exact absurd hv hdpc
          left
          have hcond : (fp || ((if f.id = f_mon_db_name then
              decide (f.data = ctx.dbName) else st.dbb_allowed) &&
                !st.dbb_processed)) = true := by
            rw [if_pos hn, hda1, hdpf]
            simp
          rw [hcond]
          exact fold_fp_mono ctx Rel.database rest _
      · rw [if_neg hn] at hda1
        exact Or.inr (Or.inr hda1)

theorem fold_db_aa_cases (ctx : Ctx) :
    ∀ (fs : List DField) (st : FState) (fp : Bool),
      (List.foldl (stepField ctx Rel.database) (st, fp) fs).1.dbb_allowed = true →
      (List.foldl (stepField ctx Rel.database) (st, fp) fs).1.att_allowed = true →
      (List.foldl (stepField ctx Rel.database) (st, fp) fs).2 = true ∨
        (st.dbb_allowed = true ∧ st.att_allowed = true) := by
  intro fs
  induction fs with
  | nil => intro st fp hda haa; exact Or.inr ⟨hda, haa⟩
  | cons f rest ih =>
    intro st fp hda haa
    rw [List.foldl_cons] at hda haa ⊢
    have hstep : stepField ctx Rel.database (st, fp) f =
        (⟨(if f.id = f_mon_db_name then decide (f.data = ctx.dbName)
             else st.dbb_allowed),
          (if f.id = f_mon_db_name then decide (f.data = ctx.dbName)
             else st.dbb_allowed) && !st.dbb_processed,
          st.dbb_processed⟩,
         fp || ((if f.id = f_mon_db_name then decide (f.data = ctx.dbName)
             else st.dbb_allowed) && !st.dbb_processed)) := by
      simp [stepField]
    rw [hstep] at hda haa ⊢
    rcases ih _ _ hda haa with hacc | ⟨hda1, haa1⟩
    · exact Or.inl hacc
    · left
      simp only at haa1
      have hcond : (fp || ((if f.id = f_mon_db_name then
          decide (f.data = ctx.dbName) else st.dbb_allowed) &&
            !st.dbb_processed)) = true := by
        rw [haa1]
        simp
      rw [hcond]
      exact fold_fp_mono ctx Rel.database rest _

theorem fold_att_acc (ctx : Ctx) :
    ∀ (fs : List DField) (st : FState) (fp : Bool),
      (List.foldl (stepField ctx Rel.attachments) (st, fp) fs).2 = true →
      fp = true ∨ st.dbb_allowed = true := by
  intro fs
  induction fs with
  | nil => intro st fp h; exact Or.inl h
  | cons f rest ih =>
    intro st fp hacc
    rw [List.foldl_cons] at hacc
    have hstep : stepField ctx Rel.attachments (st, fp) f =
        (⟨st.dbb_allowed,
          (if f.id = f_mon_att_user then
            ctx.locksmith || decide (f.data = ctx.userName) else st.att_allowed),
          st.dbb_processed || (st.dbb_allowed &&
            (if f.id = f_mon_att_user then
              ctx.locksmith || decide (f.data = ctx.userName) else st.att_allowed))⟩,
         fp || (st.dbb_allowed &&
           (if f.id = f_mon_att_user then
             ctx.locksmith || decide (f.data = ctx.userName) else st.att_allowed))) := by
      simp [stepField]
    rw [hstep] at hacc
    rcases ih _ _ hacc with hfp1 | hda1
    · rcases Bool.or_eq_true_iff.mp hfp1 with hfp | hcond
      · exact Or.inl hfp
      · exact Or.inr (Bool.and_eq_true_iff.mp hcond).1
    · exact Or.inr hda1

theorem fold_att_aa (ctx : Ctx) :
    ∀ (fs : List DField) (st : FState) (fp : Bool),
      st.dbb_allowed = true →
      (List.foldl (stepField ctx Rel.attachments) (st, fp) fs).1.att_allowed = true →
      (List.foldl (stepField ctx Rel.attachments) (st, fp) fs).2 = true ∨
        st.att_allowed = true := by
  intro fs
  induction fs with
  | nil => intro st fp _hda haa; exact Or.inr haa
  | cons f rest ih =>
    intro st fp hda haa
    rw [List.foldl_cons] at haa ⊢
    have hstep : stepField ctx Rel.attachments (st, fp) f =
        (⟨st.dbb_allowed,
          (if f.id = f_mon_att_user then
            ctx.locksmith || decide (f.data = ctx.userName) else st.att_allowed),
          st.dbb_processed || (st.dbb_allowed &&
            (if f.id = f_mon_att_user then
              ctx.locksmith || decide (f.data = ctx.userName) else st.att_allowed))⟩,
         fp || (st.dbb_allowed &&
           (if f.id = f_mon_att_user then
             ctx.locksmith || decide (f.data = ctx.userName) else st.att_allowed))) := by
      simp [stepField]
    rw [hstep] at haa ⊢
    rcases ih
      ⟨st.dbb_allowed,
        (if f.id = f_mon_att_user then
          ctx.locksmith || decide (f.data = ctx.userName) else st.att_allowed),
        st.dbb_processed || (st.dbb_allowed &&
          (if f.id = f_mon_att_user then
            ctx.locksmith || decide (f.data = ctx.userName) else st.att_allowed))⟩
      (fp || (st.dbb_allowed &&
        (if f.id = f_mon_att_user then
          ctx.locksmith || decide (f.data = ctx.userName) else st.att_allowed)))
      hda haa with hacc | haa1
    · exact Or.inl hacc
    · simp only at haa1
      by_cases hu : f.id = f_mon_att_user
      · rw [if_pos hu] at haa1
        left
        have hcond : (fp || (st.dbb_allowed &&
            (if f.id = f_mon_att_user then
              ctx.locksmith || decide (f.data = ctx.userName)
            else st.att_allowed))) = true := by
          rw [if_pos hu, hda, haa1]
          simp
        rw [hcond]
        exact fold_fp_mono ctx Rel.attachments rest _
      · rw [if_neg hu] at haa1
        exact Or.inr haa1

theorem fold_att_fix (ctx : Ctx) :
    ∀ (fs : List DField) (st : FState) (fp : Bool),
      (∀ g ∈ fs, g.id ≠ f_mon_att_user) →
      (st.dbb_processed || (st.dbb_allowed && st.att_allowed)) = st.dbb_processed →
      (fp || (st.dbb_allowed && st.att_allowed)) = fp →
      List.foldl (stepField ctx Rel.attachments) (st, fp) fs = (st, fp) := by
  intro fs
  induction fs with
  | nil => intro st fp _ _ _; rfl
  | cons g rest ih =>
    intro st fp hids hdp hfp
    have hg : g.id ≠ f_mon_att_user := hids g (List.mem_cons_self g rest)
    have hstep : stepField ctx Rel.attachments (st, fp) g = (st, fp) := by
      simp [stepField, hg, hdp, hfp]
    rw [List.foldl_cons, hstep]
    exact ih st fp (fun x hx => hids x (List.mem_cons_of_mem g hx)) hdp hfp

theorem fold_db_fix (ctx : Ctx) :
    ∀ (fs : List DField) (st : FState) (fp : Bool),
      (∀ g ∈ fs, g.id ≠ f_mon_db_name) →
      st.att_allowed = (st.dbb_allowed && !st.dbb_processed) →
      (fp || (st.dbb_allowed && !st.dbb_processed)) = fp →
      List.foldl (stepField ctx Rel.database) (st, fp) fs = (st, fp) := by
  intro fs
  induction fs with
  | nil => intro st fp _ _ _; rfl
  | cons g rest ih =>
    intro st fp hids haa hfp
    have hg : g.id ≠ f_mon_db_name := hids g (List.mem_cons_self g rest)
    have hstep0 : stepField ctx Rel.database (st, fp) g =
        (⟨st.dbb_allowed, st.dbb_allowed && !st.dbb_processed, st.dbb_processed⟩,
         fp || (st.dbb_allowed && !st.dbb_processed)) := by
      simp [stepField, hg]
    have hstep : stepField ctx Rel.database (st, fp) g = (st, fp) := by
      rw [hstep0, hfp, ← haa]
    rw [List.foldl_cons, hstep]
    exact ih st fp (fun x hx => hids x (List.mem_cons_of_mem g hx)) haa hfp

/-- Processing a well laid-out attachment record (user field first, nowhere
else) from state st: att_allowed becomes locksmith-or-user-match, the record
is accepted iff dbb_allowed and that flag hold, and dbb_processed is set when
it is accepted. -/
theorem stepRecord_att_wf (ctx : Ctx) (st : FState) (r : DRecord) (f : DField)
    (fs : List DField) (hrid : r.rid = Rel.attachments) (hfields : r.fields = f :: fs)
    (hf : f.id = f_mon_att_user) (hfs : ∀ g ∈ fs, g.id ≠ f_mon_att_user) :
    stepRecord ctx st r =
      (⟨st.dbb_allowed,
        ctx.locksmith || decide (f.data = ctx.userName),
        st.dbb_processed ||
          (st.dbb_allowed && (ctx.locksmith || decide (f.data = ctx.userName)))⟩,
       st.dbb_allowed && (ctx.locksmith || decide (f.data = ctx.userName))) := by
  unfold stepRecord
  rw [hrid, hfields, List.foldl_cons]
  have hstep : stepField ctx Rel.attachments (st, false) f =
      (⟨st.dbb_allowed,
        ctx.locksmith || decide (f.data = ctx.userName),
        st.dbb_processed ||
          (st.dbb_allowed && (ctx.locksmith || decide (f.data = ctx.userName)))⟩,
       false || (st.dbb_allowed && (ctx.locksmith || decide (f.data = ctx.userName)))) := by
    simp [stepField, hf]
  rw [hstep]
  have hfix := fold_att_fix ctx fs
    ⟨st.dbb_allowed,
      ctx.locksmith || decide (f.data = ctx.userName),
      st.dbb_processed ||
        (st.dbb_allowed && (ctx.locksmith || decide (f.data = ctx.userName)))⟩
    (false || (st.dbb_allowed && (ctx.locksmith || decide (f.data = ctx.userName))))
    hfs
    (by
      cases hv : (st.dbb_allowed && (ctx.locksmith || decide (f.data = ctx.userName)))
      · simp [hv]
      · simp [hv])
    (by
      cases hv : (st.dbb_allowed && (ctx.locksmith || decide (f.data = ctx.userName)))
      · simp [hv]
      · simp [hv])
  rw [hfix]
  simp

/-- Processing a well laid-out database record (name field first, nowhere
else) from state st: dbb_allowed becomes the name comparison, the record is
accepted iff the name matches and the database row was not already emitted,
att_allowed is re-assigned to that same condition, and dbb_processed is left
unchanged. -/
theorem stepRecord_db_wf (ctx : Ctx) (st : FState) (r : DRecord) (f : DField)
    (fs : List DField) (hrid : r.rid = Rel.database) (hfields : r.fields = f :: fs)
    (hf : f.id = f_mon_db_name) (hfs : ∀ g ∈ fs, g.id ≠ f_mon_db_name) :
    stepRecord ctx st r =
      (⟨decide (f.data = ctx.dbName),
        decide (f.data = ctx.dbName) && !st.dbb_processed,
        st.dbb_processed⟩,
       decide (f.data = ctx.dbName) && !st.dbb_processed) := by
  unfold stepRecord
  rw [hrid, hfields, List.foldl_cons]
  have hstep : stepField ctx Rel.database (st, false) f =
      (⟨decide (f.data = ctx.dbName),
        decide (f.data = ctx.dbName) && !st.dbb_processed,
        st.dbb_processed⟩,
       false || (decide (f.data = ctx.dbName) && !st.dbb_processed)) := by
    simp [stepField, hf]
  rw [hstep]
  have hfix := fold_db_fix ctx fs
    ⟨decide (f.data = ctx.dbName),
      decide (f.data = ctx.dbName) && !st.dbb_processed,
      st.dbb_processed⟩
    (false || (decide (f.data = ctx.dbName) && !st.dbb_processed))
    hfs rfl (by simp)
  rw [hfix]
  simp

/-! Well-formed streams and whole-stream characterizations. -/

/-- A record is well laid out when a database record carries the database-name
field first and nowhere else, and an attachment record carries the user field
first and nowhere else - the layout the collector guarantees (its "MUST BE
ALWAYS THE FIRST ITEM PASSED" comments). -/
def WFRecord (r : DRecord) : Prop :=
  (r.rid = Rel.database →
    (r.fields.map DField.id).head? = some f_mon_db_name ∧
    ∀ g ∈ r.fields.tail, g.id ≠ f_mon_db_name) ∧
  (r.rid = Rel.attachments →
    (r.fields.map DField.id).head? = some f_mon_att_user ∧
    ∀ g ∈ r.fields.tail, g.id ≠ f_mon_att_user)

instance WFRecord.dec (r : DRecord) : Decidable (WFRecord r) := by
  unfold WFRecord
  infer_instance

def Wellformed (recs : List DRecord) : Prop := ∀ r ∈ recs, WFRecord r

instance Wellformed.dec (recs : List DRecord) : Decidable (Wellformed recs) := by
  unfold Wellformed
  infer_instance

theorem head?_map_shape {r : DRecord} {v : Nat}
    (h : (r.fields.map DField.id).head? = some v) :
    ∃ f fs, r.fields = f :: fs ∧ f.id = v := by
  cases hf : r.fields with
  | nil => rw [hf] at h; simp at h
  | cons f fs =>
    rw [hf] at h
    simp at h
    exact ⟨f, fs, rfl, h⟩

theorem annotate_append (ctx : Ctx) :
    ∀ (xs : List DRecord) (st : FState) (ys : List DRecord),
      annotate ctx st (xs ++ ys) =
        annotate ctx st xs ++ annotate ctx (stateAfter ctx st xs) ys := by
  intro xs
  induction xs with
  | nil => intro st ys; rfl
  | cons r rest ih =>
    intro st ys
    have h1 : annotate ctx st ((r :: rest) ++ ys) =
        (r, (stepRecord ctx st r).2) ::
          annotate ctx (stepRecord ctx st r).1 (rest ++ ys) := rfl
    rw [h1, ih]
    rfl

theorem annotate_length (ctx : Ctx) :
    ∀ (recs : List DRecord) (st : FState),
      (annotate ctx st recs).length = recs.length := by
  intro recs
  induction recs with
  | nil => intro st; rfl
  | cons r rest ih => intro st; simp [annotate, ih]

theorem get?_append_cons {α : Type _} :
    ∀ (l1 : List α) (x : α) (l2 : List α),
      (l1 ++ x :: l2).get? l1.length = some x := by
  intro l1
  induction l1 with
  | nil => intro x l2; rfl
  | cons y t ih => intro x l2; simpa using ih x l2

/-- The acceptance flag of the record after a prefix p only depends on the
state reached after p. -/
theorem acceptedAt_split (ctx : Ctx) (p : List DRecord) (c : DRecord)
    (q : List DRecord) :
    acceptedAt ctx (p ++ c :: q) p.length =
      (stepRecord ctx (stateAfter ctx initFState p) c).2 := by
  unfold acceptedAt
  rw [annotate_append]
  have h1 : annotate ctx (stateAfter ctx initFState p) (c :: q) =
      (c, (stepRecord ctx (stateAfter ctx initFState p) c).2) ::
        annotate ctx (stepRecord ctx (stateAfter ctx initFState p) c).1 q := rfl
  rw [h1]
  have h2 : p.length = (annotate ctx initFState p).length :=
    (annotate_length ctx p _).symm
  rw [h2, get?_append_cons]

/-- Value of the dbb_allowed flag described from a prefix: the name of the
most recent database record compared against the requesting database name. -/
def daSpec (ctx : Ctx) (b : Bool) (o : Option (List Nat)) : Bool :=
  match o with
  | some nm => decide (nm = ctx.dbName)
  | none => b

theorem latestDbNameAux_cons (o : Option (List Nat)) (r : DRecord) (p : List DRecord) :
    latestDbNameAux o (r :: p) =
      latestDbNameAux (if r.rid = Rel.database then some (firstData r) else o) p := rfl

theorem stateAfter_da (ctx : Ctx) :
    ∀ (p : List DRecord) (st : FState) (o : Option (List Nat)) (b : Bool),
      (∀ r ∈ p, WFRecord r) →
      st.dbb_allowed = daSpec ctx b o →
      (stateAfter ctx st p).dbb_allowed = daSpec ctx b (latestDbNameAux o p) := by
  intro p
  induction p with
  | nil => intro st o b _ h; exact h
  | cons r rest ih =>
    intro st o b hwf hda
    have hwfr := hwf r (List.mem_cons_self r rest)
    have hstA : stateAfter ctx st (r :: rest) =
        stateAfter ctx (stepRecord ctx st r).1 rest := rfl
    rw [hstA, latestDbNameAux_cons]
    by_cases hdb : r.rid = Rel.database
    · obtain ⟨hhead, htail⟩ := hwfr.1 hdb
      obtain ⟨f, fs, hfe, hfid⟩ := head?_map_shape hhead
      have htail' : ∀ g ∈ fs, g.id ≠ f_mon_db_name := by
        rw [hfe] at htail
        simpa using htail
      have hstep := stepRecord_db_wf ctx st r f fs hdb hfe hfid htail'
      apply ih
      · exact fun x hx => hwf x (List.mem_cons_of_mem r hx)
      · rw [hstep, if_pos hdb]
        have hfd : firstData r = f.data := by simp [firstData, hfe]
        simp [daSpec, hfd]
    · have hda1 : (stepRecord ctx st r).1.dbb_allowed = st.dbb_allowed := by
        unfold stepRecord
        exact fold_da_preserve ctx r.rid hdb r.fields st false
      apply ih
      · exact fun x hx => hwf x (List.mem_cons_of_mem r hx)
      · rw [if_neg hdb, hda1, hda]

theorem daSpec_false_eq_true (ctx : Ctx) (o : Option (List Nat)) :
    daSpec ctx false o = true ↔ o = some ctx.dbName := by
  cases o with
  | none => simp [daSpec]
  | some nm => simp [daSpec]

/-- dbb_processed holds after a prefix exactly when some non-database record
of the prefix was accepted. -/
theorem stateAfter_dp (ctx : Ctx) :
    ∀ (p : List DRecord) (st : FState),
      (stateAfter ctx st p).dbb_processed =
        (st.dbb_processed ||
          (annotate ctx st p).any (fun x => x.2 && decide (x.1.rid ≠ Rel.database))) := by
  intro p
  induction p with
  | nil => intro st; simp [stateAfter, annotate]
  | cons r rest ih =>
    intro st
    have hstA : stateAfter ctx st (r :: rest) =
        stateAfter ctx (stepRecord ctx st r).1 rest := rfl
    have hann : annotate ctx st (r :: rest) =
        (r, (stepRecord ctx st r).2) :: annotate ctx (stepRecord ctx st r).1 rest := rfl
    rw [hstA, hann, ih]
    have hkey : (stepRecord ctx st r).1.dbb_processed =
        (st.dbb_processed ||
          ((stepRecord ctx st r).2 && decide (r.rid ≠ Rel.database))) := by
      by_cases hdb : r.rid = Rel.database
      · have h1 : (stepRecord ctx st r).1.dbb_processed = st.dbb_processed := by
          unfold stepRecord
          rw [hdb]
          exact fold_db_dp ctx r.fields st false
        rw [h1]
        simp [hdb]
      · have h2 := fold_dp_or ctx r.rid hdb r.fields st false
        simp only [Bool.or_false] at h2
        unfold stepRecord
        rw [h2]
        simp [hdb]
    rw [hkey]
    simp [List.any_cons, Bool.or_assoc]

/-- C4 amended: for a well-formed stream, an attachment record is stored into
the attachments row buffer iff the most recent preceding database record's
name field equals the requesting database's name byte-exactly (whether or not
that database record was itself stored) and the requester is locksmith or the
record's first (user) field equals the requesting user name byte-exactly.
Consequently a non-locksmith requester never receives an attachment row of a
different user. -/
theorem C4_attachment_filter (ctx : Ctx) (p : List DRecord) (c : DRecord)
    (q : List DRecord) (hwf : Wellformed (p ++ c :: q))
    (hatt : c.rid = Rel.attachments) :
    (acceptedAt ctx (p ++ c :: q) p.length = true ↔
      (latestDbName p = some ctx.dbName ∧
       (ctx.locksmith = true ∨ firstData c = ctx.userName))) ∧
    (ctx.locksmith = false → acceptedAt ctx (p ++ c :: q) p.length = true →
      firstData c = ctx.userName) := by
  have hwp : ∀ r ∈ p, WFRecord r := fun r hr => hwf r (List.mem_append_left _ hr)
  have hwc : WFRecord c := hwf c (by simp)
  obtain ⟨hhead, htail⟩ := hwc.2 hatt
  obtain ⟨f, fs, hfe, hfid⟩ := head?_map_shape hhead
  have htail' : ∀ g ∈ fs, g.id ≠ f_mon_att_user := by
    rw [hfe] at htail
    simpa using htail
  have hstep := stepRecord_att_wf ctx (stateAfter ctx initFState p) c f fs
    hatt hfe hfid htail'
  have haccv : acceptedAt ctx (p ++ c :: q) p.length =
      ((stateAfter ctx initFState p).dbb_allowed &&
        (ctx.locksmith || decide (f.data = ctx.userName))) := by
    rw [acceptedAt_split ctx p c q, hstep]
  have hda := stateAfter_da ctx p initFState none false hwp rfl
  have hfd : firstData c = f.data := by simp [firstData, hfe]
  constructor
  · rw [haccv, hda]
    have hln : latestDbName p = latestDbNameAux none p := rfl
    rw [← hln]
    constructor
    · intro h
      rw [Bool.and_eq_true] at h
      refine ⟨(daSpec_false_eq_true ctx _).mp h.1, ?_⟩
      rcases Bool.or_eq_true_iff.mp h.2 with hl | hu
      · exact Or.inl hl
      · exact Or.inr (by rw [hfd]; exact of_decide_eq_true hu)
    · intro ⟨h1, h2⟩
      rw [Bool.and_eq_true]
      refine ⟨(daSpec_false_eq_true ctx _).mpr h1, ?_⟩
      rcases h2 with hl | hu
      · simp [hl]
      · rw [hfd] at hu
        simp [hu]
  · intro hlock hacc2
    rw [haccv, hlock] at hacc2
    rw [Bool.and_eq_true] at hacc2
    have := hacc2.2
    simp only [Bool.false_or] at this
    rw [hfd]
    exact of_decide_eq_true this

/-- Witness for the amended C4: stream db(match), att(user), non-locksmith
requester with matching user name. -/
theorem C4_attachment_filter_witness :
    Wellformed ([DRecord.mk Rel.database [DField.mk 0 [1]]] ++
      DRecord.mk Rel.attachments [DField.mk 0 [2]] :: []) ∧
    ((acceptedAt (Ctx.mk [1] [2] false)
        ([DRecord.mk Rel.database [DField.mk 0 [1]]] ++
          DRecord.mk Rel.attachments [DField.mk 0 [2]] :: [])
        [DRecord.mk Rel.database [DField.mk 0 [1]]].length = true ↔
      (latestDbName [DRecord.mk Rel.database [DField.mk 0 [1]]] =
          some (Ctx.mk [1] [2] false).dbName ∧
       ((Ctx.mk [1] [2] false).locksmith = true ∨
        firstData (DRecord.mk Rel.attachments [DField.mk 0 [2]]) =
          (Ctx.mk [1] [2] false).userName))) ∧
     ((Ctx.mk [1] [2] false).locksmith = false →
      acceptedAt (Ctx.mk [1] [2] false)
        ([DRecord.mk Rel.database [DField.mk 0 [1]]] ++
          DRecord.mk Rel.attachments [DField.mk 0 [2]] :: [])
        [DRecord.mk Rel.database [DField.mk 0 [1]]].length = true →
      firstData (DRecord.mk Rel.attachments [DField.mk 0 [2]]) =
        (Ctx.mk [1] [2] false).userName)) :=
  ⟨by decide,
   C4_attachment_filter (Ctx.mk [1] [2] false)
     [DRecord.mk Rel.database [DField.mk 0 [1]]]
     (DRecord.mk Rel.attachments [DField.mk 0 [2]]) []
     (by decide) rfl⟩

/-- C6 amended: for a well-formed stream, a database record is stored iff its
name field equals the requesting database's resolved name byte-exactly and
every record stored before it is itself a database record (the dbb_processed
flag is set by the first stored attachment or child record, after which no
further database record is stored). -/
theorem C6_database_filter (ctx : Ctx) (p : List DRecord) (c : DRecord)
    (q : List DRecord) (hwf : Wellformed (p ++ c :: q))
    (hdb : c.rid = Rel.database) :
    acceptedAt ctx (p ++ c :: q) p.length = true ↔
      (firstData c = ctx.dbName ∧
       ∀ x ∈ annotate ctx initFState p, x.2 = true → x.1.rid = Rel.database) := by
  obtain ⟨hhead, htail⟩ := (hwf c (by simp)).1 hdb
  obtain ⟨f, fs, hfe, hfid⟩ := head?_map_shape hhead
  have htail' : ∀ g ∈ fs, g.id ≠ f_mon_db_name := by
    rw [hfe] at htail
    simpa using htail
  have hstep := stepRecord_db_wf ctx (stateAfter ctx initFState p) c f fs
    hdb hfe hfid htail'
  have haccv : acceptedAt ctx (p ++ c :: q) p.length =
      (decide (f.data = ctx.dbName) &&
        !(stateAfter ctx initFState p).dbb_processed) := by
    rw [acceptedAt_split ctx p c q, hstep]
  have hdp := stateAfter_dp ctx p initFState
  rw [show initFState.dbb_processed = false from rfl, Bool.false_or] at hdp
  have hfd : firstData c = f.data := by simp [firstData, hfe]
  rw [haccv, hdp, hfd]
  constructor
  · intro h
    rw [Bool.and_eq_true] at h
    refine ⟨of_decide_eq_true h.1, ?_⟩
    intro x hx hx2
    by_contra hneq
    have hany : (annotate ctx initFState p).any
        (fun y => y.2 && decide (y.1.rid ≠ Rel.database)) = true :=
      List.any_eq_true.mpr ⟨x, hx, by simp [hx2, hneq]⟩
    rw [hany] at h
    simp at h
  · intro ⟨h1, h2⟩
    have hany : (annotate ctx initFState p).any
        (fun y => y.2 && decide (y.1.rid ≠ Rel.database)) = false := by
      by_contra hne
      have htrue : (annotate ctx initFState p).any
          (fun y => y.2 && decide (y.1.rid ≠ Rel.database)) = true := by
        cases hv : (annotate ctx initFState p).any
            (fun y => y.2 && decide (y.1.rid ≠ Rel.database))
        · exact absurd hv hne
        · rfl
      obtain ⟨x, hx, hx2⟩ := List.any_eq_true.mp htrue
      rw [Bool.and_eq_true] at hx2
      exact absurd (h2 x hx hx2.1) (of_decide_eq_true hx2.2)
    rw [hany]
    simp [h1]

/-- Witness for the amended C6: a single matching database record is stored. -/
theorem C6_database_filter_witness :
    Wellformed ([] ++ DRecord.mk Rel.database [DField.mk 0 [1]] :: []) ∧
    (acceptedAt (Ctx.mk [1] [2] false)
        ([] ++ DRecord.mk Rel.database [DField.mk 0 [1]] :: [])
        ([] : List DRecord).length = true ↔
      (firstData (DRecord.mk Rel.database [DField.mk 0 [1]]) =
          (Ctx.mk [1] [2] false).dbName ∧
       ∀ x ∈ annotate (Ctx.mk [1] [2] false) initFState ([] : List DRecord),
         x.2 = true → x.1.rid = Rel.database)) :=
  ⟨by decide,
   C6_database_filter (Ctx.mk [1] [2] false) []
     (DRecord.mk Rel.database [DField.mk 0 [1]]) [] (by decide) rfl⟩

/-- Acceptance of a child-relation record forces both filter flags at the
start of the record. -/
theorem stepRecord_child_acc (ctx : Ctx) (st : FState) (r : DRecord)
    (h1 : r.rid ≠ Rel.database) (h2 : r.rid ≠ Rel.attachments)
    (hacc : (stepRecord ctx st r).2 = true) :
    st.dbb_allowed = true ∧ st.att_allowed = true := by
  unfold stepRecord at hacc
  rw [fold_child ctx r.rid h1 h2 r.fields st false] at hacc
  simp only [Bool.false_or, Bool.and_eq_true] at hacc
  exact ⟨hacc.2.1, hacc.2.2⟩

/-- Key induction for C5: walking the annotated stream with an abstract
summary (A: "an accepted database record exists in the processed prefix",
B: "an accepted attachment record exists in the processed prefix") of how the
current state was reached, every accepted child record is preceded by an
accepted database record, and by an accepted database-or-attachment record. -/
theorem child_preceded_aux (ctx : Ctx) :
    ∀ (recs : List DRecord) (st : FState) (A B : Prop),
      (st.dbb_allowed = true → A) →
      (st.dbb_processed = true → A) →
      (st.dbb_allowed = true → st.att_allowed = true → A ∨ B) →
      ∀ (p : List (DRecord × Bool)) (c : DRecord) (q : List (DRecord × Bool)),
        annotate ctx st recs = p ++ (c, true) :: q →
        c.rid ≠ Rel.database → c.rid ≠ Rel.attachments →
        ((A ∨ ∃ x ∈ p, x.2 = true ∧ x.1.rid = Rel.database) ∧
         (A ∨ B ∨ ∃ x ∈ p, x.2 = true ∧
            (x.1.rid = Rel.database ∨ x.1.rid = Rel.attachments))) := by
  intro recs
  induction recs with
  | nil =>
    intro st A B _ _ _ p c q heq _ _
    simp [annotate] at heq
  | cons r rest ih =>
    intro st A B hA1 hA2 hA3 p c q heq hc1 hc2
    have heq1 : (r, (stepRecord ctx st r).2) ::
        annotate ctx (stepRecord ctx st r).1 rest = p ++ (c, true) :: q := heq
    cases p with
    | nil =>
      simp only [List.nil_append] at heq1
      rw [List.cons.injEq] at heq1
      obtain ⟨hhead, _⟩ := heq1
      have hr : r = c := congrArg Prod.fst hhead
      have ha : (stepRecord ctx st r).2 = true := congrArg Prod.snd hhead
      have hflags := stepRecord_child_acc ctx st r
        (by rw [hr]; exact hc1) (by rw [hr]; exact hc2) ha
      refine ⟨Or.inl (hA1 hflags.1), ?_⟩
      rcases hA3 hflags.1 hflags.2 with hA | hB
      · exact Or.inl hA
      · exact Or.inr (Or.inl hB)
    | cons x p' =>
      simp only [List.cons_append] at heq1
      rw [List.cons.injEq] at heq1
      obtain ⟨hhead, htl⟩ := heq1
      have h1' : (stepRecord ctx st r).1.dbb_allowed = true →
          (A ∨ ((stepRecord ctx st r).2 = true ∧ r.rid = Rel.database)) := by
        by_cases hdb : r.rid = Rel.database
        · intro hda1
          have hda1' : (List.foldl (stepField ctx Rel.database)
              (st, false) r.fields).1.dbb_allowed = true := by
            rw [← hdb]
            exact hda1
          rcases fold_db_da_cases ctx r.fields st false hda1' with hacc | hdp | hda
          · refine Or.inr ⟨?_, hdb⟩
            show (List.foldl (stepField ctx r.rid) (st, false) r.fields).2 = true
            rw [hdb]
            exact hacc
          · exact Or.inl (hA2 hdp)
          · exact Or.inl (hA1 hda)
        · intro hda1
          have hpres : (List.foldl (stepField ctx r.rid)
              (st, false) r.fields).1.dbb_allowed = st.dbb_allowed :=
            fold_da_preserve ctx r.rid hdb r.fields st false
          exact Or.inl (hA1 (by rw [← hpres]; exact hda1))
      have h2' : (stepRecord ctx st r).1.dbb_processed = true →
          (A ∨ ((stepRecord ctx st r).2 = true ∧ r.rid = Rel.database)) := by
        by_cases hdb : r.rid = Rel.database
        · intro hdp1
          have hdp1' : (List.foldl (stepField ctx Rel.database)
              (st, false) r.fields).1.dbb_processed = true := by
            rw [← hdb]
            exact hdp1
          rw [fold_db_dp ctx r.fields st false] at hdp1'
          exact Or.inl (hA2 hdp1')
        · intro hdp1
          have hor := fold_dp_or ctx r.rid hdb r.fields st false
          simp only [Bool.or_false] at hor
          have hdp2 : (st.dbb_processed ||
              (List.foldl (stepField ctx r.rid) (st, false) r.fields).2) = true := by
            rw [← hor]
            exact hdp1
          rcases Bool.or_eq_true_iff.mp hdp2 with hdp | ha
          · exact Or.inl (hA2 hdp)
          · by_cases hatt : r.rid = Rel.attachments
            · have ha' : (List.foldl (stepField ctx Rel.attachments)
                  (st, false) r.fields).2 = true := by
                rw [← hatt]
                exact ha
              rcases fold_att_acc ctx r.fields st false ha' with hf | hda
              · exact absurd hf (by simp)
              · exact Or.inl (hA1 hda)
            · have hflags := stepRecord_child_acc ctx st r hdb hatt ha
              exact Or.inl (hA1 hflags.1)
      have h3' : (stepRecord ctx st r).1.dbb_allowed = true →
          (stepRecord ctx st r).1.att_allowed = true →
          ((A ∨ ((stepRecord ctx st r).2 = true ∧ r.rid = Rel.database)) ∨
           (B ∨ ((stepRecord ctx st r).2 = true ∧ r.rid = Rel.attachments))) := by
        by_cases hdb : r.rid = Rel.database
        · intro hda1 haa1
          have hda1' : (List.foldl (stepField ctx Rel.database)
              (st, false) r.fields).1.dbb_allowed = true := by
            rw [← hdb]; exact hda1
          have haa1' : (List.foldl (stepField ctx Rel.database)
              (st, false) r.fields).1.att_allowed = true := by
            rw [← hdb]; exact haa1
          rcases fold_db_aa_cases ctx r.fields st false hda1' haa1' with hacc | ⟨hda, haa⟩
          · refine Or.inl (Or.inr ⟨?_, hdb⟩)
            show (List.foldl (stepField ctx r.rid) (st, false) r.fields).2 = true
            rw [hdb]
            exact hacc
          · rcases hA3 hda haa with hA | hB
            · exact Or.inl (Or.inl hA)
            · exact Or.inr (Or.inl hB)
        · by_cases hatt : r.rid = Rel.attachments
          · intro hda1 haa1
            have hpres : (List.foldl (stepField ctx r.rid)
                (st, false) r.fields).1.dbb_allowed = st.dbb_allowed :=
              fold_da_preserve ctx r.rid hdb r.fields st false
            have hda : st.dbb_allowed = true := by rw [← hpres]; exact hda1
            have haa1' : (List.foldl (stepField ctx Rel.attachments)
                (st, false) r.fields).1.att_allowed = true := by
              rw [← hatt]; exact haa1
            rcases fold_att_aa ctx r.fields st false hda haa1' with hacc | haa
            · refine Or.inr (Or.inr ⟨?_, hatt⟩)
              show (List.foldl (stepField ctx r.rid) (st, false) r.fields).2 = true
              rw [hatt]
              exact hacc
            · rcases hA3 hda haa with hA | hB
              · exact Or.inl (Or.inl hA)
              · exact Or.inr (Or.inl hB)
          · intro hda1 haa1
            have hch := fold_child ctx r.rid hdb hatt r.fields st false
            have hdaeq : (stepRecord ctx st r).1.dbb_allowed = st.dbb_allowed := by
              show (List.foldl (stepField ctx r.rid) (st, false) r.fields).1.dbb_allowed
                = st.dbb_allowed
              rw [hch]
            have haaeq : (stepRecord ctx st r).1.att_allowed = st.att_allowed := by
              show (List.foldl (stepField ctx r.rid) (st, false) r.fields).1.att_allowed
                = st.att_allowed
              rw [hch]
            rcases hA3 (by rw [← hdaeq]; exact hda1) (by rw [← haaeq]; exact haa1)
              with hA | hB
            · exact Or.inl (Or.inl hA)
            · exact Or.inr (Or.inl hB)
      obtain ⟨ihc1, ihc2⟩ := ih (stepRecord ctx st r).1
        (A ∨ ((stepRecord ctx st r).2 = true ∧ r.rid = Rel.database))
        (B ∨ ((stepRecord ctx st r).2 = true ∧ r.rid = Rel.attachments))
        h1' h2' h3' p' c q htl hc1 hc2
      constructor
      · rcases ihc1 with (hA | ⟨ha, hdb⟩) | ⟨y, hy, hy2⟩
        · exact Or.inl hA
        · refine Or.inr ⟨x, List.mem_cons_self x p', ?_⟩
          rw [← hhead]
          exact ⟨ha, hdb⟩
        · exact Or.inr ⟨y, List.mem_cons_of_mem x hy, hy2⟩
      · rcases ihc2 with (hA | ⟨ha, hdb⟩) | (hB | ⟨ha, hatt⟩) | ⟨y, hy, hy2⟩
        · exact Or.inl hA
        · refine Or.inr (Or.inr ⟨x, List.mem_cons_self x p', ?_⟩)
          rw [← hhead]
          exact ⟨ha, Or.inl hdb⟩
        · exact Or.inr (Or.inl hB)
        · refine Or.inr (Or.inr ⟨x, List.mem_cons_self x p', ?_⟩)
          rw [← hhead]
          exact ⟨ha, Or.inr hatt⟩
        · exact Or.inr (Or.inr ⟨y, List.mem_cons_of_mem x hy, hy2⟩)

/-- C5 amended: for every dump stream, every accepted record of a child
relation (neither rel_database nor rel_attachment) is preceded in the stream
by an accepted rel_attachment record or by an accepted rel_database record
(database-level statistics rows follow the database record directly); in
either case an accepted rel_database record precedes it. -/
theorem C5_child_preceded (ctx : Ctx) (p : List DRecord) (c : DRecord)
    (q : List DRecord) (h1 : c.rid ≠ Rel.database) (h2 : c.rid ≠ Rel.attachments)
    (hacc : acceptedAt ctx (p ++ c :: q) p.length = true) :
    (∃ x ∈ annotate ctx initFState p, x.2 = true ∧
      (x.1.rid = Rel.database ∨ x.1.rid = Rel.attachments)) ∧
    (∃ x ∈ annotate ctx initFState p, x.2 = true ∧ x.1.rid = Rel.database) := by
  rw [acceptedAt_split] at hacc
  have hsplit : annotate ctx initFState (p ++ c :: q) =
      annotate ctx initFState p ++ (c, true) ::
        annotate ctx (stepRecord ctx (stateAfter ctx initFState p) c).1 q := by
    rw [annotate_append]
    have hcons : annotate ctx (stateAfter ctx initFState p) (c :: q) =
        (c, (stepRecord ctx (stateAfter ctx initFState p) c).2) ::
          annotate ctx (stepRecord ctx (stateAfter ctx initFState p) c).1 q := rfl
    rw [hcons, hacc]
  have haux := child_preceded_aux ctx (p ++ c :: q) initFState False False
    (by simp [initFState]) (by simp [initFState]) (by simp [initFState])
    (annotate ctx initFState p) c
    (annotate ctx (stepRecord ctx (stateAfter ctx initFState p) c).1 q)
    hsplit h1 h2
  constructor
  · rcases haux.2 with hF | hF | hex
    · exact hF.elim
    · exact hF.elim
    · exact hex
  · rcases haux.1 with hF | hex
    · exact hF.elim
    · exact hex

/-- Witness for the amended C5: after an accepted database record, an accepted
io_stats record is preceded by that accepted database record. -/
theorem C5_child_preceded_witness :
    ((DRecord.mk Rel.io_stats [DField.mk 3 [7]]).rid ≠ Rel.database) ∧
    ((DRecord.mk Rel.io_stats [DField.mk 3 [7]]).rid ≠ Rel.attachments) ∧
    (acceptedAt (Ctx.mk [1] [2] false)
      ([DRecord.mk Rel.database [DField.mk 0 [1]]] ++
        DRecord.mk Rel.io_stats [DField.mk 3 [7]] :: [])
      [DRecord.mk Rel.database [DField.mk 0 [1]]].length = true) ∧
    ((∃ x ∈ annotate (Ctx.mk [1] [2] false) initFState
        [DRecord.mk Rel.database [DField.mk 0 [1]]], x.2 = true ∧
        (x.1.rid = Rel.database ∨ x.1.rid = Rel.attachments)) ∧
     (∃ x ∈ annotate (Ctx.mk [1] [2] false) initFState
        [DRecord.mk Rel.database [DField.mk 0 [1]]], x.2 = true ∧
        x.1.rid = Rel.database)) :=
  ⟨by decide, by decide, by decide,
   C5_child_preceded (Ctx.mk [1] [2] false)
     [DRecord.mk Rel.database [DField.mk 0 [1]]]
     (DRecord.mk Rel.io_stats [DField.mk 3 [7]]) []
     (by decide) (by decide) (by decide)⟩

end Snapshot

namespace DataDump

/-!
DataDump::putField: field materialization into a record, with the GLOBAL_ID
collapse (idMap / idCounter) and the charset coercion of CORE-2602, and
DatabaseSnapshot::getGlobalId.
-/

/-- Character-set ids involved in the coercion (CS_NONE, CS_ASCII,
CS_METADATA from the engine's intl subsystem). -/
def CS_NONE : Nat := 0

def CS_ASCII : Nat := 2

def CS_METADATA : Nat := 3

/-- Typed payload of a dump field as decoded by the reader.  The 8-byte
integer / timestamp / global-id payloads are carried by value, abstracting
the source's memcpy of field.data into a typed local. -/
inductive DumpValue where
  | integer (v : Int)
  | timestamp (v : Int)
  | string (bs : List Nat)
  | globalId (g : Int)
deriving DecidableEq

structure PField where
  id : Nat
  val : DumpValue
deriving DecidableEq

/-- A value slot written into the row by MOV_move; the engine's numeric
conversions are kept abstract. -/
inductive FVal where
  | int (v : Int)
  | ts (v : Int)
  | str (bs : List Nat)
deriving DecidableEq

/-- Descriptor of one format column; a text slot carries its character set.
An absent descriptor models an unknown dsc. -/
structure Slot where
  charSet : Nat
deriving DecidableEq

structure FormatM where
  fmt_count : Nat
  fmt_desc : Nat → Option Slot

/-- Record under materialization: value slots plus per-field NULL flags. -/
structure RecM where
  vals : Nat → Option FVal
  nulls : Nat → Bool

/-- DataDump::clearRecord: all data zeroed, every NULL flag set. -/
def clearRecord : RecM := { vals := fun _ => none, nulls := fun _ => true }

/-- Snapshot-wide global-id map (idMap) plus its counter (idCounter). -/
structure IdState where
  idMap : List (Int × Nat)
  idCounter : Nat
deriving DecidableEq

def initIdState : IdState := { idMap := [], idCounter := 0 }

def idLookup : List (Int × Nat) → Int → Option Nat
  | [], _ => none
  | (g, l) :: rest, x => if g = x then some l else idLookup rest x

/-- The idMap.get / ++idCounter / idMap.put sequence of putField's GLOBAL_ID
branch. -/
def lookupOrAssign (st : IdState) (g : Int) : IdState × Nat :=
  match idLookup st.idMap g with
  | some l => (st, l)
  | none =>
    let c := st.idCounter + 1
    ({ idMap := (g, c) :: st.idMap, idCounter := c }, c)

/-- The data move followed by CLEAR_NULL: store the converted value and clear
the field's NULL flag. -/
def storeVal (rec : RecM) (id : Nat) (v : FVal) : RecM :=
  { vals := fun j => if j = id then some v else rec.vals j,
    nulls := fun j => if j = id then false else rec.nulls j }

/-- The non-ASCII substitution loop of the STRING branch (CORE-2602): every
byte above 0x7F becomes a question mark (0x3F). -/
def substNonAscii : List Nat → List Nat
  | [] => []
  | b :: rest => (if b > 0x7F then 0x3F else b) :: substNonAscii rest

/-- DataDump::putField: fetch the target descriptor (an out-of-range field id
leaves the default dsc, and an unknown descriptor returns with the record
untouched), then convert and move the value by type tag: a GLOBAL_ID is
collapsed into a 32-bit local id through the id map, and a STRING moved with
charset NONE into a metadata-charset slot has its non-ASCII bytes substituted
with question marks before the move. -/
def putField (fmt : FormatM) (st : IdState) (rec : RecM) (f : PField)
    (charset : Nat) : IdState × RecM :=
  let to_desc := if f.id < fmt.fmt_count then fmt.fmt_desc f.id else none
  match to_desc with
  | none => (st, rec)
  | some slot =>
    match f.val with
    | .globalId g =>
      let r := lookupOrAssign st g
      (r.1, storeVal rec f.id (.int (r.2 : Int)))
    | .integer v => (st, storeVal rec f.id (.int v))
    | .timestamp v => (st, storeVal rec f.id (.ts v))
    | .string bs =>
      let out := if charset = CS_NONE ∧ slot.charSet = CS_METADATA
                 then substNonAscii bs else bs
      (st, storeVal rec f.id (.str out))

theorem substNonAscii_length (bs : List Nat) :
    (substNonAscii bs).length = bs.length := by
  induction bs with
  | nil => rfl
  | cons b rest ih => simp [substNonAscii, ih]

theorem substNonAscii_getD (bs : List Nat) :
    ∀ i, i < bs.length →
      (substNonAscii bs).getD i 0 =
        if bs.getD i 0 > 0x7F then 0x3F else bs.getD i 0 := by
  induction bs with
  | nil => intro i h; simp at h
  | cons b rest ih =>
    intro i h
    cases i with
    | zero => simp [substNonAscii]
    | succ j =>
      have hj : j < rest.length := by simp at h; omega
      simpa [substNonAscii] using ih j hj

/-- C10: a field whose id is not a column of the record's format (id out of
range, or unknown descriptor) leaves putField without modifying anything: the
id state and the record are returned unchanged, so no data byte is written
and the field's NULL flag keeps its (set) value. -/
theorem C10_unknown_field_ignored (fmt : FormatM) (st : IdState) (rec : RecM)
    (f : PField) (charset : Nat)
    (h : fmt.fmt_count ≤ f.id ∨ fmt.fmt_desc f.id = none) :
    putField fmt st rec f charset = (st, rec) ∧
    (putField fmt st rec f charset).2.nulls f.id = rec.nulls f.id := by
  have hdesc : (if f.id < fmt.fmt_count then fmt.fmt_desc f.id else none) = none := by
    rcases h with h | h
    · rw [if_neg (by omega)]
    · split
      · exact h
      · rfl
  constructor
  · unfold putField
    rw [hdesc]
  · unfold putField
    rw [hdesc]

/-- Witness for C10 at a concrete out-of-range field id. -/
theorem C10_unknown_field_ignored_witness :
    putField (FormatM.mk 1 (fun _ => some (Slot.mk 3))) initIdState clearRecord
        (PField.mk 5 (DumpValue.integer 7)) 3 = (initIdState, clearRecord) ∧
    (putField (FormatM.mk 1 (fun _ => some (Slot.mk 3))) initIdState clearRecord
        (PField.mk 5 (DumpValue.integer 7)) 3).2.nulls 5 = clearRecord.nulls 5 :=
  C10_unknown_field_ignored (FormatM.mk 1 (fun _ => some (Slot.mk 3)))
    initIdState clearRecord (PField.mk 5 (DumpValue.integer 7)) 3
    (Or.inl (by decide))

/-- C9: a STRING field moved with attachment charset NONE into a slot whose
charset is the metadata charset is stored with every byte above 0x7F replaced
by a question mark and all other bytes copied unchanged; the field's NULL
flag is cleared. -/
theorem C9_charset_substitution (fmt : FormatM) (st : IdState) (rec : RecM)
    (f : PField) (bs : List Nat) (slot : Slot)
    (hid : f.id < fmt.fmt_count)
    (hdesc : fmt.fmt_desc f.id = some slot)
    (hcs : slot.charSet = CS_METADATA)
    (hval : f.val = DumpValue.string bs) :
    (putField fmt st rec f CS_NONE).1 = st ∧
    (putField fmt st rec f CS_NONE).2.vals f.id =
      some (FVal.str (substNonAscii bs)) ∧
    (putField fmt st rec f CS_NONE).2.nulls f.id = false ∧
    (substNonAscii bs).length = bs.length ∧
    (∀ i, i < bs.length →
      (substNonAscii bs).getD i 0 =
        if bs.getD i 0 > 0x7F then 0x3F else bs.getD i 0) := by
  have hput : putField fmt st rec f CS_NONE =
      (st, storeVal rec f.id (FVal.str (substNonAscii bs))) := by
    unfold putField
    rw [if_pos hid, hdesc, hval]
    simp [hcs]
  refine ⟨by rw [hput], by rw [hput]; simp [storeVal],
    by rw [hput]; simp [storeVal], substNonAscii_length bs, substNonAscii_getD bs⟩

/-- Witness for C9: the payload "café" (0x63 0x61 0x66 0xC3 0xA9) materializes
as "caf??" (0x63 0x61 0x66 0x3F 0x3F). -/
theorem C9_charset_substitution_witness :
    ((putField (FormatM.mk 1 (fun _ => some (Slot.mk 3))) initIdState clearRecord
        (PField.mk 0 (DumpValue.string [0x63, 0x61, 0x66, 0xC3, 0xA9])) CS_NONE).1
        = initIdState ∧
     (putField (FormatM.mk 1 (fun _ => some (Slot.mk 3))) initIdState clearRecord
        (PField.mk 0 (DumpValue.string [0x63, 0x61, 0x66, 0xC3, 0xA9])) CS_NONE).2.vals 0
        = some (FVal.str (substNonAscii [0x63, 0x61, 0x66, 0xC3, 0xA9])) ∧
     (putField (FormatM.mk 1 (fun _ => some (Slot.mk 3))) initIdState clearRecord
        (PField.mk 0 (DumpValue.string [0x63, 0x61, 0x66, 0xC3, 0xA9])) CS_NONE).2.nulls 0
        = false ∧
     (substNonAscii [0x63, 0x61, 0x66, 0xC3, 0xA9]).length =
        ([0x63, 0x61, 0x66, 0xC3, 0xA9] : List Nat).length ∧
     (∀ i, i < ([0x63, 0x61, 0x66, 0xC3, 0xA9] : List Nat).length →
       (substNonAscii [0x63, 0x61, 0x66, 0xC3, 0xA9]).getD i 0 =
         if ([0x63, 0x61, 0x66, 0xC3, 0xA9] : List Nat).getD i 0 > 0x7F then 0x3F
         else ([0x63, 0x61, 0x66, 0xC3, 0xA9] : List Nat).getD i 0)) ∧
    substNonAscii [0x63, 0x61, 0x66, 0xC3, 0xA9] = [0x63, 0x61, 0x66, 0x3F, 0x3F] :=
  ⟨C9_charset_substitution (FormatM.mk 1 (fun _ => some (Slot.mk 3))) initIdState
     clearRecord (PField.mk 0 (DumpValue.string [0x63, 0x61, 0x66, 0xC3, 0xA9]))
     [0x63, 0x61, 0x66, 0xC3, 0xA9] (Slot.mk 3) (by decide) rfl rfl rfl,
   by decide⟩

/-- DatabaseSnapshot::getGlobalId: ((SINT64) getpid() << BITS_PER_LONG) + value.
Modelled over Nat: pid and the non-negative counter fit in 31 bits, so the
64-bit signed arithmetic does not overflow and agrees with Nat arithmetic. -/
def BITS_PER_LONG : Nat := 32

def getGlobalId (pid value : Nat) : Nat := (pid <<< BITS_PER_LONG) + value

/-- C7: for every process id and every non-negative local counter value, the
emitted 64-bit GLOBAL_ID equals (process_id << 32) | local_counter, because
the counter occupies only the low 32 bits. -/
theorem C7_global_id_compose (pid value : Nat) (hv : value < 2 ^ 31) :
    getGlobalId pid value = ((pid <<< 32) ||| value) := by
  unfold getGlobalId BITS_PER_LONG
  have hv32 : value < 2 ^ 32 := lt_trans hv (by norm_num)
  rw [Nat.shiftLeft_eq]
  apply Nat.eq_of_testBit_eq
  intro j
  rw [Nat.testBit_lor]
  have hmul : pid * 2 ^ 32 = 2 ^ 32 * pid := Nat.mul_comm _ _
  rw [hmul, Nat.testBit_mul_pow_two_add pid hv32 j, Nat.testBit_mul_pow_two]
  by_cases hj : j < 32
  · rw [if_pos hj]
    have hnge : ¬(j ≥ 32) := by omega
    simp [hnge]
  · rw [if_neg hj]
    have hge : j ≥ 32 := by omega
    have hvb : value.testBit j = false :=
      Nat.testBit_lt_two_pow
        (lt_of_lt_of_le hv32 (Nat.pow_le_pow_right (by norm_num) hge))
    simp [hge, hvb]

/-- Witness for C7 at pid 3000 (0xBB8) and counter 1. -/
theorem C7_global_id_compose_witness :
    (1 < 2 ^ 31) ∧ getGlobalId 3000 1 = ((3000 <<< 32) ||| 1) :=
  ⟨by norm_num, C7_global_id_compose 3000 1 (by norm_num)⟩

end DataDump

namespace DataDump

/-- The sequence of global ids of a record stream pushed through putField's
GLOBAL_ID branch: each id is resolved through lookupOrAssign, chaining the
snapshot-wide id state, and the assigned 32-bit local ids are collected. -/
def processGlobalIds (st : IdState) : List Int → IdState × List Nat
  | [] => (st, [])
  | g :: rest =>
    let r := lookupOrAssign st g
    let r2 := processGlobalIds r.1 rest
    (r2.1, r.2 :: r2.2)

/-- Distinct values of a list in first-occurrence order, extending an
accumulator. -/
def accD (D : List Int) : List Int → List Int
  | [] => D
  | g :: rest => accD (if g ∈ D then D else D ++ [g]) rest

/-- Position of a value in a list (first occurrence). -/
def posIn : List Int → Int → Nat
  | [], _ => 0
  | d :: rest, g => if d = g then 0 else posIn rest g + 1

theorem accD_extend : ∀ (l D : List Int), ∃ E, accD D l = D ++ E := by
  intro l
  induction l with
  | nil => intro D; exact ⟨[], by simp [accD]⟩
  | cons g rest ih =>
    intro D
    by_cases hg : g ∈ D
    · obtain ⟨E, hE⟩ := ih D
      exact ⟨E, by simp [accD, hg, hE]⟩
    · obtain ⟨E, hE⟩ := ih (D ++ [g])
      refine ⟨[g] ++ E, ?_⟩
      simp only [accD, if_neg hg]
      rw [hE, List.append_assoc]

theorem posIn_append {D : List Int} {g : Int} (hg : g ∈ D) (E : List Int) :
    posIn (D ++ E) g = posIn D g := by
  induction D with
  | nil => simp at hg
  | cons d rest ih =>
    by_cases hd : d = g
    · simp [posIn, hd]
    · rcases List.mem_cons.mp hg with heq | hmem
      · exact absurd heq.symm hd
      · simp [posIn, hd, ih hmem]

theorem posIn_append_self {D : List Int} {g : Int} (hg : g ∉ D) :
    posIn (D ++ [g]) g = D.length := by
  induction D with
  | nil => simp [posIn]
  | cons d rest ih =>
    have hd : d ≠ g := fun h => hg (h ▸ List.mem_cons_self d rest)
    have hrest : g ∉ rest := fun h => hg (List.mem_cons_of_mem d h)
    simp [posIn, hd, ih hrest]

theorem posIn_lt {D : List Int} {g : Int} (hg : g ∈ D) : posIn D g < D.length := by
  induction D with
  | nil => simp at hg
  | cons d rest ih =>
    by_cases hd : d = g
    · simp [posIn, hd]
    · rcases List.mem_cons.mp hg with heq | hmem
      · exact absurd heq.symm hd
      · simp only [posIn, if_neg hd, List.length_cons]
        have hlt := ih hmem
        omega

theorem posIn_inj {D : List Int} (hnd : D.Nodup) :
    ∀ {g1 g2 : Int}, g1 ∈ D → g2 ∈ D → posIn D g1 = posIn D g2 → g1 = g2 := by
  induction D with
  | nil => intro g1 g2 h; simp at h
  | cons d rest ih =>
    intro g1 g2 h1 h2 heq
    have hnd2 := List.nodup_cons.mp hnd
    by_cases hd1 : d = g1
    · by_cases hd2 : d = g2
      · rw [← hd1, ← hd2]
      · rcases List.mem_cons.mp h2 with he | hm
        · exact absurd he.symm hd2
        · rw [posIn, posIn, if_pos hd1, if_neg hd2] at heq
          exact absurd heq.symm (Nat.succ_ne_zero _)
    · by_cases hd2 : d = g2
      · rcases List.mem_cons.mp h1 with he | hm
        · exact absurd he.symm hd1
        · rw [posIn, posIn, if_neg hd1, if_pos hd2] at heq
          exact absurd heq (Nat.succ_ne_zero _)
      · rcases List.mem_cons.mp h1 with he | hm1
        · exact absurd he.symm hd1
        · rcases List.mem_cons.mp h2 with he | hm2
          · exact absurd he.symm hd2
          · rw [posIn, posIn, if_neg hd1, if_neg hd2] at heq
            exact ih hnd2.2 hm1 hm2 (Nat.succ_injective heq)

theorem posIn_surj {D : List Int} (hnd : D.Nodup) :
    ∀ k, k < D.length → ∃ g ∈ D, posIn D g = k := by
  induction D with
  | nil => intro k h; simp at h
  | cons d rest ih =>
    intro k hk
    have hnd2 := List.nodup_cons.mp hnd
    cases k with
    | zero =>
      exact ⟨d, List.mem_cons_self d rest, by simp [posIn]⟩
    | succ j =>
      have hj : j < rest.length := by simp at hk; omega
      obtain ⟨g, hg, hpos⟩ := ih hnd2.2 j hj
      have hd : d ≠ g := fun h => hnd2.1 (h ▸ hg)
      exact ⟨g, List.mem_cons_of_mem d hg, by simp [posIn, hd, hpos]⟩

theorem mem_accD : ∀ (l D : List Int) (g : Int), g ∈ accD D l ↔ (g ∈ D ∨ g ∈ l) := by
  intro l
  induction l with
  | nil => intro D g; simp [accD]
  | cons x rest ih =>
    intro D g
    by_cases hx : x ∈ D
    · simp only [accD, if_pos hx]
      rw [ih]
      constructor
      · rintro (h | h)
        · exact Or.inl h
        · exact Or.inr (List.mem_cons_of_mem x h)
      · rintro (h | h)
        · exact Or.inl h
        · rcases List.mem_cons.mp h with he | hm
          · exact Or.inl (he ▸ hx)
          · exact Or.inr hm
    · simp only [accD, if_neg hx]
      rw [ih]
      constructor
      · rintro (h | h)
        · rcases List.mem_append.mp h with hm | hm
          · exact Or.inl hm
          · simp at hm
            exact Or.inr (hm ▸ List.mem_cons_self x rest)
        · exact Or.inr (List.mem_cons_of_mem x h)
      · rintro (h | h)
        · exact Or.inl (List.mem_append_left _ h)
        · rcases List.mem_cons.mp h with he | hm
          · exact Or.inl (List.mem_append_right _ (by simp [he]))
          · exact Or.inr hm

theorem nodup_accD : ∀ (l D : List Int), D.Nodup → (accD D l).Nodup := by
  intro l
  induction l with
  | nil => intro D h; exact h
  | cons x rest ih =>
    intro D hnd
    by_cases hx : x ∈ D
    · simp only [accD, if_pos hx]
      exact ih D hnd
    · simp only [accD, if_neg hx]
      apply ih
      rw [List.nodup_append]
      exact ⟨hnd, List.nodup_singleton x, by
        intro a ha hb
        simp at hb
        exact hx (hb ▸ ha)⟩

/-- Invariant tying the id state to the distinct prefix D: the counter is the
number of distinct ids seen, and the map sends exactly the members of D to
their dense local ids 1..|D|. -/
def IdInv (st : IdState) (D : List Int) : Prop :=
  st.idCounter = D.length ∧ D.Nodup ∧
  ∀ g, idLookup st.idMap g = if g ∈ D then some (posIn D g + 1) else none

theorem processGlobalIds_spec :
    ∀ (l : List Int) (st : IdState) (D : List Int), IdInv st D →
      (processGlobalIds st l).2 = l.map (fun g => posIn (accD D l) g + 1) ∧
      IdInv (processGlobalIds st l).1 (accD D l) := by
  intro l
  induction l with
  | nil =>
    intro st D hinv
    exact ⟨rfl, hinv⟩
  | cons g rest ih =>
    intro st D hinv
    obtain ⟨hcnt, hnd, hmap⟩ := hinv
    by_cases hg : g ∈ D
    · have hla : lookupOrAssign st g = (st, posIn D g + 1) := by
        unfold lookupOrAssign
        rw [hmap g, if_pos hg]
      have haccs : accD D (g :: rest) = accD D rest := by
        simp [accD, hg]
      obtain ⟨htail, hinv2⟩ := ih st D ⟨hcnt, hnd, hmap⟩
      constructor
      · show (processGlobalIds st (g :: rest)).2 = _
        have hunf : processGlobalIds st (g :: rest) =
            ((processGlobalIds (lookupOrAssign st g).1 rest).1,
             (lookupOrAssign st g).2 ::
               (processGlobalIds (lookupOrAssign st g).1 rest).2) := rfl
        rw [hunf, hla]
        simp only [List.map_cons, haccs]
        rw [htail]
        obtain ⟨E, hE⟩ := accD_extend rest D
        rw [hE, posIn_append hg]
      · have hunf : (processGlobalIds st (g :: rest)).1 =
            (processGlobalIds (lookupOrAssign st g).1 rest).1 := rfl
        rw [hunf, hla, haccs]
        exact hinv2
    · have hla : lookupOrAssign st g =
          ({ idMap := (g, D.length + 1) :: st.idMap, idCounter := D.length + 1 },
           D.length + 1) := by
        unfold lookupOrAssign
        rw [hmap g, if_neg hg, hcnt]
      have hinv1 : IdInv (IdState.mk ((g, D.length + 1) :: st.idMap)
          (D.length + 1)) (D ++ [g]) := by
        refine ⟨by simp, ?_, ?_⟩
        · rw [List.nodup_append]
          exact ⟨hnd, List.nodup_singleton g, by
            intro a ha hb
            simp at hb
            exact hg (hb ▸ ha)⟩
        · intro x
          by_cases hx : g = x
          · subst hx
            have hmem : g ∈ D ++ [g] := List.mem_append_right _ (by simp)
            simp [idLookup, hmem, posIn_append_self hg]
          · have hlk : idLookup ((g, D.length + 1) :: st.idMap) x =
                idLookup st.idMap x := by
              simp [idLookup, hx]
            rw [hlk, hmap x]
            by_cases hxD : x ∈ D
            · have hmem : x ∈ D ++ [g] := List.mem_append_left _ hxD
              rw [if_pos hxD, if_pos hmem, posIn_append hxD]
            · have hnmem : x ∉ D ++ [g] := by
                intro hmem
                rcases List.mem_append.mp hmem with hm | hm
                · exact hxD hm
                · simp at hm
                  exact hx hm.symm
              rw [if_neg hxD, if_neg hnmem]
      have haccs : accD D (g :: rest) = accD (D ++ [g]) rest := by
        simp [accD, hg]
      obtain ⟨htail, hinv2⟩ := ih
        (IdState.mk ((g, D.length + 1) :: st.idMap) (D.length + 1))
        (D ++ [g]) hinv1
      constructor
      · have hunf : processGlobalIds st (g :: rest) =
            ((processGlobalIds (lookupOrAssign st g).1 rest).1,
             (lookupOrAssign st g).2 ::
               (processGlobalIds (lookupOrAssign st g).1 rest).2) := rfl
        rw [hunf, hla]
        simp only [List.map_cons, haccs]
        rw [htail]
        obtain ⟨E, hE⟩ := accD_extend rest (D ++ [g])
        have hgmem : g ∈ D ++ [g] := List.mem_append_right _ (by simp)
        rw [hE, posIn_append hgmem, posIn_append_self hg]
      · have hunf : (processGlobalIds st (g :: rest)).1 =
            (processGlobalIds (lookupOrAssign st g).1 rest).1 := rfl
        rw [hunf, hla, haccs]
        exact hinv2

theorem getD_map {α β : Type _} (f : α → β) (d : β) (d0 : α) :
    ∀ (l : List α) (i : Nat), i < l.length →
      (l.map f).getD i d = f (l.getD i d0) := by
  intro l
  induction l with
  | nil => intro i h; simp at h
  | cons x rest ih =>
    intro i h
    cases i with
    | zero => simp
    | succ j =>
      have hj : j < rest.length := by simp at h; omega
      simpa using ih j hj

theorem getD_mem {α : Type _} (d : α) :
    ∀ (l : List α) (i : Nat), i < l.length → l.getD i d ∈ l := by
  intro l
  induction l with
  | nil => intro i h; simp at h
  | cons x rest ih =>
    intro i h
    cases i with
    | zero => simp
    | succ j =>
      have hj : j < rest.length := by simp at h; omega
      simpa using List.mem_cons_of_mem x (ih j hj)

end DataDump

namespace DataDump

/-- C8: pushing a sequence of 64-bit global ids through putField's id-map
logic assigns 32-bit local ids that form exactly the dense range 1..k, where
k is the number of distinct global ids, and two occurrences receive the same
local id iff their global ids are equal.  Here accD [] l enumerates the
distinct ids of l in first-occurrence order: it has no duplicates and exactly
the members of l, so its length is the number of distinct ids. -/
theorem C8_global_id_collapse (l : List Int) :
    ((processGlobalIds initIdState l).2.length = l.length) ∧
    ((accD [] l).Nodup ∧ (∀ g, g ∈ accD [] l ↔ g ∈ l)) ∧
    (∀ i j, i < l.length → j < l.length →
      ((processGlobalIds initIdState l).2.getD i 0 =
          (processGlobalIds initIdState l).2.getD j 0 ↔
        l.getD i 0 = l.getD j 0)) ∧
    (∀ m, m ∈ (processGlobalIds initIdState l).2 ↔
      (1 ≤ m ∧ m ≤ (accD [] l).length)) := by
  have hinv0 : IdInv initIdState [] := by
    refine ⟨rfl, List.nodup_nil, ?_⟩
    intro g
    simp [idLookup, initIdState]
  obtain ⟨hout, hinv⟩ := processGlobalIds_spec l initIdState [] hinv0
  have hnd : (accD [] l).Nodup := nodup_accD l [] List.nodup_nil
  have hmem : ∀ g, g ∈ accD [] l ↔ g ∈ l := by
    intro g
    rw [mem_accD]
    simp
  refine ⟨by rw [hout]; simp, ⟨hnd, hmem⟩, ?_, ?_⟩
  · intro i j hi hj
    rw [hout, getD_map _ 0 0 l i hi, getD_map _ 0 0 l j hj]
    constructor
    · intro h
      have hgi : l.getD i 0 ∈ accD [] l := (hmem _).mpr (getD_mem 0 l i hi)
      have hgj : l.getD j 0 ∈ accD [] l := (hmem _).mpr (getD_mem 0 l j hj)
      exact posIn_inj hnd hgi hgj (by omega)
    · intro h
      rw [h]
  · intro m
    rw [hout]
    constructor
    · intro hm
      obtain ⟨g, hgl, hgm⟩ := List.mem_map.mp hm
      have hga : g ∈ accD [] l := (hmem g).mpr hgl
      have hlt := posIn_lt hga
      omega
    · intro hb
      obtain ⟨h1, h2⟩ := hb
      have hk : m - 1 < (accD [] l).length := by omega
      obtain ⟨g, hga, hpos⟩ := posIn_surj hnd (m - 1) hk
      have hgl : g ∈ l := (hmem g).mp hga
      refine List.mem_map.mpr ⟨g, hgl, ?_⟩
      show posIn (accD [] l) g + 1 = m
      omega

/-- Witness for C8 at the spec's example: input global ids
0x00000BB800000001, 0x00000BB800000001, 0x00000FA000000001 receive the local
ids 1, 1, 2. -/
theorem C8_global_id_collapse_witness :
    (0 < 3 ∧ 2 < 3) ∧
    ((processGlobalIds initIdState
        [0x00000BB800000001, 0x00000BB800000001, 0x00000FA000000001]).2.getD 0 0 =
      (processGlobalIds initIdState
        [0x00000BB800000001, 0x00000BB800000001, 0x00000FA000000001]).2.getD 2 0 ↔
      ([0x00000BB800000001, 0x00000BB800000001,
        0x00000FA000000001] : List Int).getD 0 0 =
      ([0x00000BB800000001, 0x00000BB800000001,
        0x00000FA000000001] : List Int).getD 2 0) ∧
    (processGlobalIds initIdState
      [0x00000BB800000001, 0x00000BB800000001, 0x00000FA000000001]).2 = [1, 1, 2] :=
  ⟨⟨by decide, by decide⟩,
   (C8_global_id_collapse
     [0x00000BB800000001, 0x00000BB800000001, 0x00000FA000000001]).2.2.1 0 2
     (by decide) (by decide),
   by decide⟩

end DataDump
